import Mathlib

/-!
Verification development for the chain-state engine of a small
proof-of-work cryptocurrency node (Python sources: transaction.py,
block.py, chain.py, rules.py, utils.py, miner.py, wallet.py, node.py,
crypto.py).

Modelling conventions:
* Python bytes objects are lists of naturals (each byte below 256).
* Python ints are Lean Int (amounts, indices, heights) or Nat where the
  source only ever produces naturals (nonces, byte values).
* The cryptographic primitives (double SHA-256, ECDSA sign/verify) are
  parameters collected in the Crypto structure; every chain function is
  parametric over them.  The function crypto.hash_data called by
  Block.compute_hash is absent from crypto.py; per the specification
  (section 4.1) the block hash is double SHA-256, so it is modelled by
  the same hash parameter as double_sha256.
* Mutation of Python objects is modelled by explicit state passing.  The
  chain keeps the spent flags of coins inside the transaction map, which
  is an association list mirroring a Python dict (insertion order,
  unique keys, in-place overwrite).  Pointer writes through linked
  transaction inputs whose target transaction is still installed in the
  map coincide with updating the map entry; writes to a popped
  transaction are invisible to the map and are modelled as no-ops on it.
* Failures that raise in Python (assert, KeyError, IndexError,
  AttributeError, missing files) are modelled with Option/Except none.
-/

set_option maxRecDepth 100000

/-- Byte strings (Python bytes): lists of naturals below 256. -/
abbrev ByteL := List Nat

/-- UTF-8 bytes of an ASCII string literal (used for fixed JSON keys). -/
def strBytes (s : String) : ByteL := s.toList.map Char.toNat

/-- All entries are genuine byte values. -/
def validBytes (bs : ByteL) : Prop := ∀ x ∈ bs, x < 256

instance (bs : ByteL) : Decidable (validBytes bs) := by
  unfold validBytes; infer_instance

/-- Lowercase hex digit (byte code) of a nibble, as in Python bytes.hex. -/
def hexDigitChar (n : Nat) : Nat := if n < 10 then 48 + n else 87 + n

/-- Python bytes.hex: two lowercase hex digits per byte. -/
def bytesToHex (bs : ByteL) : ByteL :=
  bs.flatMap (fun b => [hexDigitChar (b / 16), hexDigitChar (b % 16)])

/-- Value of one hex digit character (byte code); none when not a hex digit. -/
def hexDigitVal (ch : Nat) : Option Nat :=
  if 48 ≤ ch ∧ ch ≤ 57 then some (ch - 48)
  else if 97 ≤ ch ∧ ch ≤ 102 then some (ch - 87)
  else if 65 ≤ ch ∧ ch ≤ 70 then some (ch - 55)
  else none

/-- Python bytes.fromhex on a string with no whitespace; none models the
ValueError raised on malformed input. -/
def hexToBytes : ByteL → Option ByteL
  | [] => some []
  | c1 :: c2 :: rest =>
    match hexDigitVal c1, hexDigitVal c2, hexToBytes rest with
    | some h, some l, some bs => some ((16 * h + l) :: bs)
    | _, _, _ => none
  | _ => none

/-- Decimal digit characters of a natural, most significant first. -/
def natToDigitsAux : Nat → Nat → List Nat → List Nat
  | 0, _, acc => acc
  | fuel + 1, n, acc =>
    if n < 10 then (48 + n % 10) :: acc
    else natToDigitsAux fuel (n / 10) ((48 + n % 10) :: acc)

/-- Decimal representation of a natural as byte codes. -/
def natToDigits (n : Nat) : List Nat := natToDigitsAux (n + 1) n []

/-- Decimal representation of an integer as byte codes (codepoint 45 is
the minus sign). -/
def intToDigits (n : Int) : List Nat :=
  if n < 0 then 45 :: natToDigits n.natAbs else natToDigits n.natAbs

/-- Python int.to_bytes(len, big): fixed-width big-endian bytes.  Values
needing more than len bytes are truncated here; Python raises
OverflowError instead, a case no modelled code path reaches. -/
def natToBytesBE : Nat → Nat → ByteL
  | 0, _ => []
  | k + 1, n => natToBytesBE k (n / 256) ++ [n % 256]

/-- utils.bytes_to_bits: big-endian bit list of a byte string. -/
def bytesToBits (bs : ByteL) : List Nat :=
  bs.flatMap (fun byte => ((List.range 8).reverse).map (fun i => byte >>> i % 2))

/-!  JSON values as produced by json.loads / consumed by json.dumps.
Strings are kept as their UTF-8 bytes; every string the system serializes
is plain ASCII hex, so rendering needs no escaping. -/

/-- A Python-level JSON value (the object passed between to_json and
from_json).  Object fields keep their insertion order, exactly as a
Python dict does. -/
inductive JVal where
  | jstr (s : ByteL)
  | jint (n : Int)
  | jarr (elems : List JVal)
  | jobj (fields : List (ByteL × JVal))

mutual

/-- json.dumps with default separators, as a byte string. -/
def JVal.render : JVal → ByteL
  | .jstr s => [34] ++ s ++ [34]
  | .jint n => intToDigits n
  | .jarr l => [91] ++ JVal.renderElems l ++ [93]
  | .jobj l => [123] ++ JVal.renderFields l ++ [125]

/-- Array elements joined by comma-space. -/
def JVal.renderElems : List JVal → ByteL
  | [] => []
  | [x] => JVal.render x
  | x :: y :: xs => JVal.render x ++ [44, 32] ++ JVal.renderElems (y :: xs)

/-- Object fields rendered as quoted key, colon-space, value, joined by
comma-space. -/
def JVal.renderFields : List (ByteL × JVal) → ByteL
  | [] => []
  | [(k, v)] => [34] ++ k ++ [34, 58, 32] ++ JVal.render v
  | (k, v) :: f :: xs =>
    [34] ++ k ++ [34, 58, 32] ++ JVal.render v ++ [44, 32] ++ JVal.renderFields (f :: xs)

end

/-- First-match association-list lookup (Python dict get; keys are unique
in every dict the system builds, so first match is the match). -/
def assocLookup {κ α : Type} [DecidableEq κ] : List (κ × α) → κ → Option α
  | [], _ => none
  | (k', v) :: rest, k => if k' = k then some v else assocLookup rest k

/-- Replace the value at the first entry with the given key. -/
def assocAdjust {κ α : Type} [DecidableEq κ] : List (κ × α) → κ → (α → α) → List (κ × α)
  | [], _, _ => []
  | (k', v) :: rest, k, f =>
    if k' = k then (k', f v) :: rest else (k', v) :: assocAdjust rest k f

/-- Python dict membership. -/
def assocMember {κ α : Type} [DecidableEq κ] (l : List (κ × α)) (k : κ) : Bool :=
  (assocLookup l k).isSome

/-- Python dict assignment: overwrite in place when the key is present,
otherwise append at the end (insertion order). -/
def assocInsert {κ α : Type} [DecidableEq κ] (l : List (κ × α)) (k : κ) (v : α) :
    List (κ × α) :=
  if assocMember l k then assocAdjust l k (fun _ => v) else l ++ [(k, v)]

/-- Python dict.pop: remove and return the entry; none models KeyError. -/
def assocPop {κ α : Type} [DecidableEq κ] : List (κ × α) → κ → Option (α × List (κ × α))
  | [], _ => none
  | (k', v) :: rest, k =>
    if k' = k then some (v, rest)
    else (assocPop rest k).map (fun p => (p.1, (k', v) :: p.2))

/-- The cryptographic primitives of crypto.py, kept abstract.  hash is
double_sha256 (and, modelled from the spec: the missing crypto.hash_data
used by Block.compute_hash, which section 4.1 of the spec also defines
as double SHA-256). -/
structure Crypto where
  hash : ByteL → ByteL
  sign : ByteL → ByteL → ByteL
  verify : ByteL → ByteL → ByteL → Bool

/-- crypto.verify never throws: a missing public key or missing
signature (Python None reaching the ecdsa library) yields False. -/
def Crypto.verifyOpt (c : Crypto) (pub : Option ByteL) (sig : Option ByteL)
    (data : ByteL) : Bool :=
  match pub, sig with
  | some p, some s => c.verify p s data
  | _, _ => false

/-- transaction.TxnInput: reference to a prior transaction output. -/
structure TxnInput where
  txn_id : ByteL
  index : Int
deriving DecidableEq

/-- transaction.TxnOutput: a coin.  The signature starts as Python None;
spent is the chain-local flag set False by the constructor. -/
structure TxnOutput where
  pub_key : ByteL
  amount : Int
  signature : Option ByteL
  spent : Bool
deriving DecidableEq

/-- transaction.Transaction.  txn_id is Python None until computed.
LinkedTransaction adds only resolved pointers to the same data, so the
chain's installed (linked) transactions reuse this type. -/
structure Transaction where
  inputs : List TxnInput
  outputs : List TxnOutput
  txn_id : Option ByteL
deriving DecidableEq

/-- TxnInput.to_json. -/
def TxnInput.toJson (i : TxnInput) : JVal :=
  .jobj [(strBytes "txn_id", .jstr (bytesToHex i.txn_id)),
         (strBytes "index", .jint i.index)]

/-- TxnInput.from_json.  A non-string txn_id or non-integer index makes
Python raise inside bytes.fromhex or later; modelled as none. -/
def TxnInput.fromJson (j : JVal) : Option TxnInput :=
  match j with
  | .jobj fields =>
    match assocLookup fields (strBytes "txn_id"), assocLookup fields (strBytes "index") with
    | some (.jstr s), some (.jint n) => (hexToBytes s).map (fun bs => ⟨bs, n⟩)
    | _, _ => none
  | _ => none

/-- Serializable.to_bytes: the UTF-8 bytes of json.dumps(to_json()). -/
def TxnInput.toBytes (i : TxnInput) : ByteL := (TxnInput.toJson i).render

/-- TxnOutput.to_json (empty hex string when the signature is unset). -/
def TxnOutput.toJson (o : TxnOutput) : JVal :=
  .jobj [(strBytes "pub_key", .jstr (bytesToHex o.pub_key)),
         (strBytes "amount", .jint o.amount),
         (strBytes "signature", .jstr (match o.signature with
                                       | none => []
                                       | some s => bytesToHex s))]

/-- TxnOutput.from_json; the constructor sets spent to False. -/
def TxnOutput.fromJson (j : JVal) : Option TxnOutput :=
  match j with
  | .jobj fields =>
    match assocLookup fields (strBytes "pub_key"),
          assocLookup fields (strBytes "amount"),
          assocLookup fields (strBytes "signature") with
    | some (.jstr p), some (.jint a), some (.jstr s) =>
      match hexToBytes p, hexToBytes s with
      | some pb, some sb => some ⟨pb, a, some sb, false⟩
      | _, _ => none
    | _, _, _ => none
  | _ => none

/-- Parse every element or fail (the Python list comprehension followed
by the all() check). -/
def parseAll {α : Type} (f : JVal → Option α) : List JVal → Option (List α)
  | [] => some []
  | j :: rest =>
    match f j, parseAll f rest with
    | some x, some xs => some (x :: xs)
    | _, _ => none

/-- Transaction.to_json (empty hex string when txn_id is unset). -/
def Transaction.toJson (t : Transaction) : JVal :=
  .jobj [(strBytes "txn_id", .jstr (match t.txn_id with
                                    | none => []
                                    | some id => bytesToHex id)),
         (strBytes "inputs", .jarr (t.inputs.map TxnInput.toJson)),
         (strBytes "outputs", .jarr (t.outputs.map TxnOutput.toJson))]

/-- Transaction.from_json. -/
def Transaction.fromJson (j : JVal) : Option Transaction :=
  match j with
  | .jobj fields =>
    match assocLookup fields (strBytes "txn_id"),
          assocLookup fields (strBytes "inputs"),
          assocLookup fields (strBytes "outputs") with
    | some (.jstr idStr), some (.jarr ins), some (.jarr outs) =>
      match hexToBytes idStr, parseAll TxnInput.fromJson ins,
            parseAll TxnOutput.fromJson outs with
      | some idb, some pins, some pouts => some ⟨pins, pouts, some idb⟩
      | _, _, _ => none
    | _, _, _ => none
  | _ => none

/-- Transaction.compute_txn_id: double SHA-256 of the JSON dump of the
input list concatenated with the JSON dump of the output list. -/
def Transaction.computeTxnId (c : Crypto) (t : Transaction) : ByteL :=
  c.hash ((JVal.jarr (t.inputs.map TxnInput.toJson)).render ++
          (JVal.jarr (t.outputs.map TxnOutput.toJson)).render)

/-- Concatenation of the serialized inputs, the prefix of every signed
payload. -/
def Transaction.inputBytes (t : Transaction) : ByteL :=
  (t.inputs.map TxnInput.toBytes).flatten

/-- Transaction.sign: set each output signature to the signature of
double_sha256(input bytes concatenated with that output's public key),
then recompute txn_id over the now-signed outputs. -/
def Transaction.sign (c : Crypto) (key : ByteL) (t : Transaction) : Transaction :=
  let tib := t.inputBytes
  let outs := t.outputs.map
    (fun o => { o with signature := some (c.sign key (c.hash (tib ++ o.pub_key))) })
  let t1 : Transaction := { t with outputs := outs }
  { t1 with txn_id := some (t1.computeTxnId c) }

/-- Transaction.verify_signature: every output signature must verify
against the sender key over the bound payload; a missing key or missing
signature fails through the never-throwing crypto.verify. -/
def Transaction.verifySignature (c : Crypto) (sender : Option ByteL)
    (t : Transaction) : Bool :=
  let tib := t.inputBytes
  t.outputs.all (fun o => c.verifyOpt sender o.signature (c.hash (tib ++ o.pub_key)))

/-- block.Block.  block_hash is Python None until supplied. -/
structure Block where
  prev_hash : ByteL
  height : Int
  nonce : Nat
  transactions : List Transaction
  block_hash : Option ByteL
deriving DecidableEq

/-- Block.compute_hash with an explicit nonce: double SHA-256 of
prev_hash, 4-byte big-endian height, 32-byte big-endian nonce and the
JSON dump of the transaction list.  A negative height would raise in
Python; verify_block rejects it before hashing. -/
def Block.computeHashWith (c : Crypto) (b : Block) (nonce : Nat) : ByteL :=
  c.hash (b.prev_hash ++ natToBytesBE 4 b.height.toNat ++ natToBytesBE 32 nonce ++
          (JVal.jarr (b.transactions.map Transaction.toJson)).render)

/-- Block.compute_hash with the block's own nonce. -/
def Block.computeHash (c : Crypto) (b : Block) : ByteL :=
  b.computeHashWith c b.nonce

/-- Block.to_json; none models the attribute crash when block_hash is
still Python None. -/
def Block.toJson (b : Block) : Option JVal :=
  match b.block_hash with
  | none => none
  | some h =>
    some (.jobj [(strBytes "hash", .jstr (bytesToHex h)),
                 (strBytes "prev_hash", .jstr (bytesToHex b.prev_hash)),
                 (strBytes "height", .jint b.height),
                 (strBytes "nonce", .jint (b.nonce : Int)),
                 (strBytes "transactions", .jarr (b.transactions.map Transaction.toJson))])

/-- Block.from_json.  A negative nonce would make every later
compute_hash raise, so it is rejected at parse time here. -/
def Block.fromJson (j : JVal) : Option Block :=
  match j with
  | .jobj fields =>
    match assocLookup fields (strBytes "hash"),
          assocLookup fields (strBytes "prev_hash"),
          assocLookup fields (strBytes "height"),
          assocLookup fields (strBytes "nonce"),
          assocLookup fields (strBytes "transactions") with
    | some (.jstr h), some (.jstr p), some (.jint ht), some (.jint nn), some (.jarr ts) =>
      match hexToBytes h, hexToBytes p, parseAll Transaction.fromJson ts with
      | some hb, some pb, some pts =>
        if 0 ≤ nn then some ⟨pb, ht, nn.toNat, pts, some hb⟩ else none
      | _, _, _ => none
    | _, _, _, _, _ => none
  | _ => none

/-- Convenience builder: a block whose stored hash is its computed hash
(how every mined or genesis block is produced). -/
def mkBlock (c : Crypto) (prev : ByteL) (h : Int) (nonce : Nat)
    (txns : List Transaction) : Block :=
  let b : Block := ⟨prev, h, nonce, txns, none⟩
  { b with block_hash := some (b.computeHashWith c nonce) }

/-! rules.py -/

/-- rules.MINING_REWARD. -/
def MINING_REWARD : Int := 50

/-- rules.MIN_ZEROS. -/
def MIN_ZEROS : Nat := 20

/-- rules.MAX_BLOCKS_BEHIND. -/
def MAX_BLOCKS_BEHIND : Int := 10

/-- rules.valid_block_hash: the first MIN_ZEROS bits are zero. -/
def validBlockHash (h : ByteL) : Bool :=
  ((bytesToBits h).take MIN_ZEROS).all (fun bit => bit == 0)

/-! chain.py: the transaction index and the chain state machine. -/

/-- chain.BlockChain.transactions: a Python dict from txn_id (Python
None before an id is computed) to the installed linked transaction.
Coin spent flags live in the stored outputs. -/
abbrev TxnMap := List (Option ByteL × Transaction)

/-- Python list indexing: negative indices count from the end; none
models IndexError. -/
def pyIndex (idx : Int) (len : Nat) : Option Nat :=
  if 0 ≤ idx then (if idx < (len : Int) then some idx.toNat else none)
  else (if 0 ≤ (len : Int) + idx then some ((len : Int) + idx).toNat else none)

/-- Overwrite the spent flag of the coin at a (valid, normalized)
output position; out of range leaves the list unchanged. -/
def setCoinSpent (outs : List TxnOutput) (n : Nat) (b : Bool) : List TxnOutput :=
  match outs[n]? with
  | some o => outs.set n { o with spent := b }
  | none => outs

/-- Write one spent flag through the transaction map (the Python
assignment linked_txn.outputs[index].spent = b on the installed
transaction). -/
def spendOne (tm : TxnMap) (id : ByteL) (n : Nat) (b : Bool) : TxnMap :=
  assocAdjust tm (some id) (fun t => { t with outputs := setCoinSpent t.outputs n b })

/-- The input-spending loop of BlockChain.apply_transaction: look the
predecessor up (none models the failed assert), mark its coin spent.
Pythonic negative indices are honoured; an out-of-range index is the
IndexError none. -/
def spendInputs : TxnMap → List TxnInput → Option TxnMap
  | tm, [] => some tm
  | tm, i :: rest =>
    match assocLookup tm (some i.txn_id) with
    | none => none
    | some prev =>
      match pyIndex i.index prev.outputs.length with
      | none => none
      | some n => spendInputs (spendOne tm i.txn_id n true) rest

/-- The LinkedTransaction installed by apply_transaction: same inputs
and id, outputs with their spent flags reset to False. -/
def installTxn (t : Transaction) : Transaction :=
  { inputs := t.inputs,
    outputs := t.outputs.map (fun o => { o with spent := false }),
    txn_id := t.txn_id }

/-- BlockChain.apply_transaction: spend every consumed coin, then
install the linked transaction under its id. -/
def applyTransaction (tm : TxnMap) (t : Transaction) : Option TxnMap :=
  (spendInputs tm t.inputs).map (fun tm1 => assocInsert tm1 t.txn_id (installTxn t))

/-- The unspending loop of BlockChain.revert_transaction.  The write
goes through the linked pointer: when the predecessor is still
installed this is the map entry; when it has been popped the write is
invisible to the map (modelled as a no-op). -/
def unspendInputs : TxnMap → List TxnInput → Option TxnMap
  | tm, [] => some tm
  | tm, i :: rest =>
    match assocLookup tm (some i.txn_id) with
    | none => unspendInputs tm rest
    | some prev =>
      match pyIndex i.index prev.outputs.length with
      | none => none
      | some n => unspendInputs (spendOne tm i.txn_id n false) rest

/-- BlockChain.revert_transaction: pop the transaction (none models
KeyError) and unspend the coins its stored inputs had consumed. -/
def revertTransaction (tm : TxnMap) (t : Transaction) : Option TxnMap :=
  match assocPop tm t.txn_id with
  | none => none
  | some (linked, tm1) => unspendInputs tm1 linked.inputs

/-- BlockChain.apply_block: apply the block transactions in order. -/
def applySeq : TxnMap → List Transaction → Option TxnMap
  | tm, [] => some tm
  | tm, t :: rest =>
    match applyTransaction tm t with
    | none => none
    | some tm1 => applySeq tm1 rest

/-- Revert transactions in the (already reversed) order given. -/
def revertSeq : TxnMap → List Transaction → Option TxnMap
  | tm, [] => some tm
  | tm, t :: rest =>
    match revertTransaction tm t with
    | none => none
    | some tm1 => revertSeq tm1 rest

/-- BlockChain.revert_block: revert the block transactions in reverse
order. -/
def revertBlockTxns (tm : TxnMap) (txns : List Transaction) : Option TxnMap :=
  revertSeq tm txns.reverse

/-- The input loop of BlockChain.verify_transaction: thread the sender
key and input total; none is a rejection (unknown predecessor, index
out of range, mixed senders, already-spent coin). -/
def checkInputs (tm : TxnMap) :
    List TxnInput → Option ByteL → Int → Option (Option ByteL × Int)
  | [], sender, tot => some (sender, tot)
  | i :: rest, sender, tot =>
    match assocLookup tm (some i.txn_id) with
    | none => none
    | some prev =>
      if i.index < 0 ∨ (prev.outputs.length : Int) ≤ i.index then none
      else
        match prev.outputs[i.index.toNat]? with
        | none => none
        | some coin =>
          match sender with
          | none =>
            if coin.spent then none
            else checkInputs tm rest (some coin.pub_key) (tot + coin.amount)
          | some pk =>
            if pk ≠ coin.pub_key then none
            else if coin.spent then none
            else checkInputs tm rest sender (tot + coin.amount)

/-- The output loop of BlockChain.verify_transaction: no negative
amounts; returns the output total. -/
def checkOutputs : List TxnOutput → Int → Option Int
  | [], tot => some tot
  | o :: rest, tot => if o.amount < 0 then none else checkOutputs rest (tot + o.amount)

/-- BlockChain.verify_transaction. -/
def verifyTransaction (c : Crypto) (tm : TxnMap) (t : Transaction)
    (is_coinbase : Bool) : Bool :=
  if assocMember tm t.txn_id then false
  else if t.txn_id ≠ some (t.computeTxnId c) then false
  else
    match (if is_coinbase then
             match t.inputs, t.outputs with
             | [], [o] => some (some o.pub_key)
             | _, _ => none
           else some none) with
    | none => false
    | some sender0 =>
      match checkInputs tm t.inputs sender0 0 with
      | none => false
      | some (sender, in_tot) =>
        match checkOutputs t.outputs 0 with
        | none => false
        | some out_tot =>
          if is_coinbase = false ∧ in_tot ≠ out_tot then false
          else t.verifySignature c sender

/-- The transaction loop of BlockChain.verify_block: verify each
transaction (coinbase for index 0), temporarily apply it so later
transactions can spend its outputs, and on the way out revert every
temporarily applied transaction in reverse order.  The net effect on
the map is the same whether the block is accepted or rejected. -/
def verifyApplyRevert (c : Crypto) (tm : TxnMap) :
    List Transaction → Bool → Option (Bool × TxnMap)
  | [], _ => some (true, tm)
  | t :: rest, first =>
    if verifyTransaction c tm t first then
      match applyTransaction tm t with
      | none => none
      | some tm1 =>
        match verifyApplyRevert c tm1 rest false with
        | none => none
        | some (ok, tm2) =>
          match revertTransaction tm2 t with
          | none => none
          | some tm3 => some (ok, tm3)
    else some (false, tm)

/-- BlockChain.verify_block: height, recomputed hash, proof-of-work,
non-emptiness, then the transaction loop. -/
def verifyBlock (c : Crypto) (tm : TxnMap) (b : Block) : Option (Bool × TxnMap) :=
  if b.height < 0 then some (false, tm)
  else if b.block_hash ≠ some (b.computeHash c) then some (false, tm)
  else if validBlockHash (b.computeHash c) = false then some (false, tm)
  else if b.transactions.length < 1 then some (false, tm)
  else verifyApplyRevert c tm b.transactions true

/-- chain.BlockChainNode: a block and the back pointer to its
predecessor node (Python None for the genesis node). -/
inductive ChainNode where
  | mk (prev : Option ChainNode) (data : Block)

/-- The prev field. -/
def ChainNode.prev : ChainNode → Option ChainNode
  | .mk p _ => p

/-- The data field. -/
def ChainNode.data : ChainNode → Block
  | .mk _ d => d

/-- The BlockChain state: levels (height to dict from block hash to
node), the transaction index, max_height and head_block.  The keys of a
level dict are the stored block hashes (Python None for an unhashed
block, which never reaches a level). -/
structure ChainState where
  levels : List (List (Option ByteL × ChainNode))
  transactions : TxnMap
  maxHeight : Int
  headBlock : ChainNode

/-- Result of BlockChain.insert_block (True, False, None). -/
inductive InsertResult where
  | inserted
  | rejected
  | missingPrev
deriving DecidableEq

/-- BlockChain.previous_block_node. -/
def previousBlockNode (st : ChainState) (b : Block) : Option ChainNode :=
  if b.height ≤ 0 ∨ (st.levels.length : Int) < b.height then none
  else
    match st.levels[(b.height - 1).toNat]? with
    | none => none
    | some dict => assocLookup dict (some b.prev_hash)

/-- First loop of move_head: revert the source side down to the target
height.  Stepping past a missing predecessor while still above the
target crashes in Python (none). -/
def descendSrc : Nat → TxnMap → ChainNode → Int → Option (TxnMap × ChainNode)
  | 0, _, _, _ => none
  | fuel + 1, tm, src, h =>
    if h < src.data.height then
      match revertBlockTxns tm src.data.transactions with
      | none => none
      | some tm1 =>
        match src.prev with
        | none => none
        | some s => descendSrc fuel tm1 s h
    else some (tm, src)

/-- Second loop of move_head: walk the destination side down to the
source height, queuing the visited nodes for later application. -/
def descendDst : Nat → ChainNode → Int → List ChainNode →
    Option (ChainNode × List ChainNode)
  | 0, _, _, _ => none
  | fuel + 1, dst, h, acc =>
    if h < dst.data.height then
      match dst.prev with
      | none => none
      | some d => descendDst fuel d h (acc ++ [dst])
    else some (dst, acc)

/-- Third loop of move_head: step both sides back until the hashes
meet, reverting on the source side and queuing on the destination
side.  Failing to meet before running out of predecessors is the fatal
assert (none). -/
def meetLCA : Nat → TxnMap → ChainNode → ChainNode → List ChainNode →
    Option (TxnMap × List ChainNode)
  | 0, _, _, _, _ => none
  | fuel + 1, tm, src, dst, acc =>
    if src.data.block_hash = dst.data.block_hash then some (tm, acc)
    else
      match revertBlockTxns tm src.data.transactions, src.prev, dst.prev with
      | some tm1, some s, some d => meetLCA fuel tm1 s d (acc ++ [dst])
      | _, _, _ => none

/-- Apply the blocks of the queued nodes, oldest first (the final loop
of move_head runs over the queue reversed). -/
def applyNodes : TxnMap → List ChainNode → Option TxnMap
  | tm, [] => some tm
  | tm, n :: rest =>
    match applySeq tm n.data.transactions with
    | none => none
    | some tm1 => applyNodes tm1 rest

/-- BlockChain.move_head: revert to the lowest common ancestor of src
and dst, then apply the dst branch upward.  Only the transaction map is
touched. -/
def moveHead (fuel : Nat) (tm : TxnMap) (src dst : ChainNode) : Option TxnMap :=
  match descendSrc fuel tm src dst.data.height with
  | none => none
  | some (tm1, src1) =>
    match descendDst fuel dst src1.data.height [] with
    | none => none
    | some (dst1, acc) =>
      match meetLCA fuel tm1 src1 dst1 acc with
      | none => none
      | some (tm2, acc2) => applyNodes tm2 acc2.reverse

/-- The level extension of insert_block_node: append empty dicts until
the block's level exists (a no-op for a negative difference, like the
Python range). -/
def extendLevels (levels : List (List (Option ByteL × ChainNode))) (h : Int) :
    List (List (Option ByteL × ChainNode)) :=
  levels ++ List.replicate (h + 1 - (levels.length : Int)).toNat []

/-- The final dict assignment of insert_block_node: store the node at
its level under its block hash. -/
def levelsInsert (levels : List (List (Option ByteL × ChainNode)))
    (node : ChainNode) : List (List (Option ByteL × ChainNode)) :=
  match levels[node.data.height.toNat]? with
  | none => levels
  | some dict =>
    levels.set node.data.height.toNat (assocInsert dict node.data.block_hash node)

/-- Body of BlockChain.insert_block_node after the reorg-horizon guard:
extend the levels, move the head to the predecessor, verify, apply, and
either keep the new node as head or move the head back. -/
def insertBlockBody (fuel : Nat) (c : Crypto) (st : ChainState) (node : ChainNode) :
    Option (InsertResult × ChainState) :=
  let levels1 := extendLevels st.levels node.data.height
  match (match node.prev with
         | some p => moveHead fuel st.transactions st.headBlock p
         | none => some st.transactions) with
  | none => none
  | some tm1 =>
    match verifyBlock c tm1 node.data with
    | none => none
    | some (ok, tm2) =>
      if ok = false then some (.rejected, { st with levels := levels1, transactions := tm2 })
      else
        match applySeq tm2 node.data.transactions with
        | none => none
        | some tm3 =>
          if node.data.height < st.maxHeight then
            match moveHead fuel tm3 node st.headBlock with
            | none => none
            | some tm4 =>
              some (.inserted, { st with levels := levelsInsert levels1 node,
                                         transactions := tm4 })
          else
            some (.inserted, { st with levels := levelsInsert levels1 node,
                                       transactions := tm3,
                                       maxHeight := node.data.height,
                                       headBlock := node })

/-- BlockChain.insert_block_node: blocks at or below max_height minus
MAX_BLOCKS_BEHIND are auto-rejected before anything is touched. -/
def insertBlockNode (fuel : Nat) (c : Crypto) (st : ChainState) (node : ChainNode) :
    Option (InsertResult × ChainState) :=
  if node.data.height ≤ st.maxHeight - MAX_BLOCKS_BEHIND then some (.rejected, st)
  else insertBlockBody fuel c st node

/-- BlockChain.insert_block: resolve the predecessor, report a missing
one, otherwise insert the wrapped node. -/
def insertBlock (fuel : Nat) (c : Crypto) (st : ChainState) (b : Block) :
    Option (InsertResult × ChainState) :=
  let prev := previousBlockNode st b
  if 0 < b.height ∧ prev.isSome = false then some (.missingPrev, st)
  else insertBlockNode fuel c st (ChainNode.mk prev b)

/-- The txn_id keys of all transactions on the branch from genesis to
the given node, oldest block first. -/
def branchTxnKeys : ChainNode → List (Option ByteL)
  | .mk prev b =>
    (match prev with
     | some p => branchTxnKeys p
     | none => []) ++ b.transactions.map (fun t => t.txn_id)

/-! miner.py and the mining loop of node.py. -/

/-- miner.Strategy. -/
inductive Strategy where
  | random
  | increment
deriving DecidableEq

/-- miner.Miner.  The randint stream of the RANDOM strategy is modelled
by an oracle rng consumed at increasing indices. -/
structure Miner where
  pub_key : ByteL
  pri_key : ByteL
  strategy : Strategy
  pending_txns : List Transaction
  i : Nat
  rng : Nat → Nat
  rngIdx : Nat

/-- Miner.first_nonce. -/
def Miner.firstNonce (m : Miner) : Miner := { m with i := 0 }

/-- Miner.next_nonce: a random draw under RANDOM, the running counter
under INCREMENT (0 first). -/
def Miner.nextNonce (m : Miner) : Option Nat × Miner :=
  match m.strategy with
  | .random => (some (m.rng m.rngIdx), { m with rngIdx := m.rngIdx + 1 })
  | .increment => (some m.i, { m with i := m.i + 1 })

/-- Miner.compose_block: nonce 0, the pending transactions. -/
def Miner.composeBlock (m : Miner) (prev : ByteL) (h : Int) : Block :=
  ⟨prev, h, 0, m.pending_txns, none⟩

/-- Miner.valid_nonce: recompute the hash with this nonce and test the
proof-of-work predicate. -/
def validNonce (c : Crypto) (b : Block) (nonce : Nat) : Bool :=
  validBlockHash (b.computeHashWith c nonce)

/-- Miner.generate_coinbase_txn: no inputs, one MINING_REWARD output to
the miner's key, signed with the miner's private key. -/
def generateCoinbaseTxn (c : Crypto) (pub pri : ByteL) : Transaction :=
  Transaction.sign c pri ⟨[], [⟨pub, MINING_REWARD, none, false⟩], none⟩

/-- The Block class of block.py defines from_json, to_json and
compute_hash only: there is no set_nonce method, so the Python call
block.set_nonce(nonce) made by node.find_nonce and the miner main block
raises AttributeError.  The modelled call therefore always errors. -/
inductive AttrErr where
  | setNonceMissing
deriving DecidableEq

/-- The attribute lookup block.set_nonce on a Block (always the
AttributeError branch, since block.py defines no such method). -/
def Block.setNonce (_ : Block) (_ : Nat) : Except AttrErr Block :=
  .error .setNonceMissing

/-- Possible exits of node.find_nonce: the success return True after
queuing the mined block, the stale-chain return False, the implicit
return None when the walrus condition turns falsy, and fuel
exhaustion of the model. -/
inductive MineOutcome where
  | found (b : Block)
  | aborted
  | exhausted
  | fuelOut

/-- The mining loop of node.find_nonce.  flags is the CHAIN_MODIFIED
value observed at each iteration (concurrent environment as an
oracle); tested collects every nonce passed to valid_nonce.  The loop
condition is the Python truthiness of next_nonce(): None or 0 ends the
loop with the implicit return None. -/
def findNonceLoop (c : Crypto) :
    Nat → Miner → Block → (Nat → Bool) → Nat → List Nat →
    Except AttrErr (MineOutcome × List Nat)
  | 0, _, _, _, _, tested => .ok (.fuelOut, tested)
  | fuel + 1, m, blk, flags, t, tested =>
    match m.nextNonce with
    | (none, _) => .ok (.exhausted, tested)
    | (some nonce, m1) =>
      if nonce = 0 then .ok (.exhausted, tested)
      else
        let tested1 := tested ++ [nonce]
        if validNonce c blk nonce then
          match blk.setNonce nonce with
          | .error e => .error e
          | .ok blk1 => .ok (.found blk1, tested1)
        else if flags t then .ok (.aborted, tested1)
        else findNonceLoop c fuel m1 blk flags (t + 1) tested1

/-- node.find_nonce: first_nonce, then the walrus while loop. -/
def findNonce (c : Crypto) (fuel : Nat) (m : Miner) (blk : Block)
    (flags : Nat → Bool) : Except AttrErr (MineOutcome × List Nat) :=
  findNonceLoop c fuel m.firstNonce blk flags 0 []

/-! wallet.py -/

/-- The parts of wallet.Wallet that find_coins reads: the owner key and
the loaded transaction list. -/
structure Wallet where
  pub_key : ByteL
  transactions : List Transaction

/-- Inner loop of Wallet.find_coins over one transaction's outputs:
skip foreign and spent coins, accumulate (txn, index) pairs, return the
accumulated list as soon as the total reaches the target.  inl is the
early return, inr carries the running total and accumulator on. -/
def findCoinsInner (pk : ByteL) (target : Int) (txn : Transaction) :
    List TxnOutput → Nat → Int → List (Transaction × Nat) →
    Sum (List (Transaction × Nat)) (Int × List (Transaction × Nat))
  | [], _, tot, acc => .inr (tot, acc)
  | o :: os, i, tot, acc =>
    if o.pub_key ≠ pk then findCoinsInner pk target txn os (i + 1) tot acc
    else if o.spent then findCoinsInner pk target txn os (i + 1) tot acc
    else
      let tot1 := tot + o.amount
      let acc1 := acc ++ [(txn, i)]
      if target ≤ tot1 then .inl acc1
      else findCoinsInner pk target txn os (i + 1) tot1 acc1

/-- Outer loop of Wallet.find_coins over the loaded transactions;
falls through to the empty list when the target is never reached. -/
def findCoinsOuter (pk : ByteL) (target : Int) :
    List Transaction → Int → List (Transaction × Nat) → List (Transaction × Nat)
  | [], _, _ => []
  | txn :: rest, tot, acc =>
    match findCoinsInner pk target txn txn.outputs 0 tot acc with
    | .inl found => found
    | .inr (tot1, acc1) => findCoinsOuter pk target rest tot1 acc1

/-- Wallet.find_coins. -/
def Wallet.findCoins (w : Wallet) (target : Int) : List (Transaction × Nat) :=
  findCoinsOuter w.pub_key target w.transactions 0 []

/-! Concrete instances used to evaluate the model: a trivial hash
(three zero bytes, so the proof-of-work predicate holds, then the byte
sum so distinct payloads get distinct digests) and an
always-accepting signature scheme. -/

/-- A concrete executable instance of the crypto parameters. -/
def cTriv : Crypto where
  hash := fun data => [0, 0, 0, data.sum % 256]
  sign := fun _ _ => []
  verify := fun _ _ _ => true

/-- A transaction with its computed id attached (how every transaction
in the system carries its id: txn.txn_id = txn.compute_txn_id()). -/
def mkIdTxn (c : Crypto) (ins : List TxnInput) (outs : List TxnOutput) : Transaction :=
  let t : Transaction := ⟨ins, outs, none⟩
  { t with txn_id := some (t.computeTxnId c) }

/-- Coinbase of the demo genesis block. -/
def gTxn : Transaction := mkIdTxn cTriv [] [⟨[1], 50, some [], false⟩]

/-- Coinbase of the demo height-1 block. -/
def b1Txn : Transaction := mkIdTxn cTriv [] [⟨[2], 50, some [], false⟩]

/-- Demo genesis block (valid under cTriv). -/
def gBlock : Block := mkBlock cTriv (List.replicate 32 0) 0 0 [gTxn]

/-- Demo height-1 block on top of genesis (valid under cTriv). -/
def b1Block : Block := mkBlock cTriv (gBlock.block_hash.getD []) 1 0 [b1Txn]

/-- An invalid height-1 block whose predecessor is genesis: its stored
hash is not its recomputed hash, so verify_block rejects it. -/
def badBlock : Block :=
  ⟨gBlock.block_hash.getD [], 1, 0, [b1Txn], some [9]⟩

/-- The chain state at construction time, before the genesis insert
(chain.BlockChain.init before insert_block(head_block)). -/
def startState : ChainState :=
  { levels := [], transactions := [], maxHeight := 0,
    headBlock := ChainNode.mk none gBlock }

/-- Insert genesis, then the height-1 block, then the invalid block
whose resolved predecessor is genesis (one level below the head). -/
def demoRun : Option (InsertResult × ChainState) :=
  match insertBlock 99 cTriv startState gBlock with
  | none => none
  | some (_, st1) =>
    match insertBlock 99 cTriv st1 b1Block with
    | none => none
    | some (_, st2) => insertBlock 99 cTriv st2 badBlock

/-- A crypto instance whose hash never meets the proof-of-work bound,
used to drive the mining loop along its losing branch. -/
def cLose : Crypto where
  hash := fun _ => [255]
  sign := fun _ _ => []
  verify := fun _ _ _ => true

/-! Claim theorems: coinbase verification (C2). -/

/-- C2 counterexample: a coinbase transaction paying 7 instead of
MINING_REWARD is accepted by verify_transaction with is_coinbase set,
because the amount is never compared to MINING_REWARD. -/
def cb7 : Transaction := mkIdTxn cTriv [] [⟨[1], 7, some [], false⟩]

/-! Claim theorems: the reorg horizon (C5). -/

/-- C5 counterexample state: a chain whose head and max_height sit at
height 10. -/
def hiState : ChainState :=
  { levels := [], transactions := [], maxHeight := 10,
    headBlock := ChainNode.mk none ⟨[], 10, 0, [], none⟩ }

/-! Claim development: Wallet.find_coins (C6). -/

/-- The wallet-owned unspent coins of one transaction, with output
indices (from a running offset) and amounts, in output order: exactly
the coins the inner find_coins loop does not skip. -/
def ownedCoinsFrom (pk : ByteL) (t : Transaction) :
    Nat → List TxnOutput → List (Transaction × Nat × Int)
  | _, [] => []
  | i, o :: os =>
    if o.pub_key = pk ∧ o.spent = false then
      (t, i, o.amount) :: ownedCoinsFrom pk t (i + 1) os
    else ownedCoinsFrom pk t (i + 1) os

/-- All wallet-owned unspent coins in loaded order. -/
def ownedUnspentCoins (w : Wallet) : List (Transaction × Nat × Int) :=
  w.transactions.flatMap (fun t => ownedCoinsFrom w.pub_key t 0 t.outputs)

/-- Sum of the amounts of a coin list. -/
def sumAmounts (coins : List (Transaction × Nat × Int)) : Int :=
  (coins.map (fun c => c.2.2)).sum

/-- Linear scan over the flattened coin list with running total and
accumulator: the code's nested loops, flattened. -/
def scanCoins (target : Int) :
    List (Transaction × Nat × Int) → Int → List (Transaction × Nat) →
    List (Transaction × Nat)
  | [], _, _ => []
  | coin :: cs, tot, acc =>
    if target ≤ tot + coin.2.2 then acc ++ [(coin.1, coin.2.1)]
    else scanCoins target cs (tot + coin.2.2) (acc ++ [(coin.1, coin.2.1)])

/-- The claim's selection rule read literally: the first prefix of the
owned-unspent coin list (the empty prefix included) whose summed
amounts reach at least the target; the empty list when none does. -/
def claimFirstReach (coins : List (Transaction × Nat × Int)) (target : Int) :
    List (Transaction × Nat) :=
  match (List.range (coins.length + 1)).find?
      (fun k => decide (target ≤ sumAmounts (coins.take k))) with
  | some k => (coins.take k).map (fun c => (c.1, c.2.1))
  | none => []

/-- The amended selection rule: the first nonempty prefix of the
owned-unspent coin list whose summed amounts reach at least the target
(nonempty because the loop checks the total only after accumulating a
coin); the empty list when no nonempty prefix reaches it. -/
def firstReachingSelection (coins : List (Transaction × Nat × Int)) (target : Int) :
    List (Transaction × Nat) :=
  match (List.range' 1 coins.length).find?
      (fun k => decide (target ≤ sumAmounts (coins.take k))) with
  | some k => (coins.take k).map (fun c => (c.1, c.2.1))
  | none => []

/-! Claim development: serialization round trip (C7). -/

/-- A system-produced input: its id bytes are genuine bytes. -/
def TxnInput.wf (i : TxnInput) : Prop := validBytes i.txn_id

instance (i : TxnInput) : Decidable i.wf := by
  unfold TxnInput.wf; infer_instance

/-- A system-produced output: genuine key bytes and a present, genuine
signature. -/
def TxnOutput.wf (o : TxnOutput) : Prop :=
  validBytes o.pub_key ∧ o.signature.isSome = true ∧ validBytes (o.signature.getD [])

instance (o : TxnOutput) : Decidable o.wf := by
  unfold TxnOutput.wf; infer_instance

/-- A system-produced transaction: a present, genuine id and
well-formed inputs and outputs. -/
def Transaction.wf (t : Transaction) : Prop :=
  t.txn_id.isSome = true ∧ validBytes (t.txn_id.getD []) ∧
  (∀ i ∈ t.inputs, i.wf) ∧ (∀ o ∈ t.outputs, o.wf)

instance (t : Transaction) : Decidable t.wf := by
  unfold Transaction.wf; infer_instance

/-- A system-produced block: genuine hash bytes, a present stored
hash, and well-formed transactions. -/
def Block.wf (b : Block) : Prop :=
  validBytes b.prev_hash ∧ b.block_hash.isSome = true ∧
  validBytes (b.block_hash.getD []) ∧ ∀ t ∈ b.transactions, t.wf

instance (b : Block) : Decidable b.wf := by
  unfold Block.wf; infer_instance

/-- The serialized fields of a transaction, with the unserialized
local spent flags at their constructor default. -/
def stripTxn (t : Transaction) : Transaction :=
  { t with outputs := t.outputs.map (fun o => { o with spent := false }) }

/-- The serialized fields of a block. -/
def stripBlock (b : Block) : Block :=
  { b with transactions := b.transactions.map stripTxn }

/-- One blind spent-flag write addressed by predecessor id and output
index. -/
def posWrite (b : Bool) (tm : TxnMap) (p : ByteL × Nat) : TxnMap :=
  spendOne tm p.1 p.2 b

/-- A sequence of blind writes, first position first. -/
def posWriteAll (b : Bool) : TxnMap → List (ByteL × Nat) → TxnMap
  | tm, [] => tm
  | tm, p :: ps => posWriteAll b (posWrite b tm p) ps

/-- The coin stored at a position. -/
def readCoin (tm : TxnMap) (p : ByteL × Nat) : Option TxnOutput :=
  (assocLookup tm (some p.1)).bind (fun t => t.outputs[p.2]?)

/-- The resolved position of one transaction input: the predecessor
must be installed and the index in range. -/
def inputPos (tm : TxnMap) (i : TxnInput) : Option (ByteL × Nat) :=
  (assocLookup tm (some i.txn_id)).bind
    (fun prev => (pyIndex i.index prev.outputs.length).map (fun n => (i.txn_id, n)))

/-- Every input of the list resolves to a position. -/
def inputsPresent (tm : TxnMap) (ins : List TxnInput) : Prop :=
  ∀ i ∈ ins, (inputPos tm i).isSome = true

/-- C3 witness: a block spending the genesis coinbase verifies against
the genesis map and hands back that exact map. -/
def spendTxn : Transaction :=
  mkIdTxn cTriv [⟨(gTxn.txn_id).getD [], 0⟩] [⟨[3], 50, some [], false⟩]

/-- C3 witness block: coinbase plus a transaction spending the genesis
coin. -/
def spendBlock : Block :=
  mkBlock cTriv (gBlock.block_hash.getD []) 2 0 [b1Txn, spendTxn]

/-- C3 witness map: the genesis coinbase installed. -/
def gMap : TxnMap := [(gTxn.txn_id, installTxn gTxn)]

/-! Claim development: the verify_block check list (C4). -/

/-- The pure verdict of the verify_block transaction loop: every
transaction verifies (coinbase for index 0) against the map with its
predecessors in the same block temporarily applied. -/
def txnsVerify (c : Crypto) : TxnMap → List Transaction → Bool → Bool
  | _, [], _ => true
  | tm, t :: rest, first =>
    verifyTransaction c tm t first &&
      (match applyTransaction tm t with
       | some tm1 => txnsVerify c tm1 rest false
       | none => false)

/-! Theorems. -/

/-! Claim theorems: mining and signing. -/

/-- C8: re-signing is idempotent: signing a transaction twice with the
same key yields the same output signatures and the same computed txn_id
as signing it once, because the signed payloads depend only on the
inputs and the output public keys, which signing never changes. -/
theorem sign_idempotent (c : Crypto) (key : ByteL) (t : Transaction) :
    Transaction.sign c key (Transaction.sign c key t) = Transaction.sign c key t := by
  cases t with
  | mk ins outs tid =>
    simp only [Transaction.sign, Transaction.inputBytes, Transaction.computeTxnId,
      List.map_map]
    rfl

/-- C9: under the INCREMENT strategy the first next_nonce after
first_nonce is 0, so the walrus mining loop of find_nonce ends at once:
no nonce is ever passed to valid_nonce and the function falls through
with the implicit None return. -/
theorem increment_mining_loop_exits_immediately (c : Crypto) (m : Miner)
    (blk : Block) (flags : Nat → Bool) (fuel : Nat)
    (h : m.strategy = .increment) :
    (m.firstNonce.nextNonce).1 = some 0 ∧
    findNonce c (fuel + 1) m blk flags = .ok (.exhausted, []) := by
  constructor
  · simp [Miner.firstNonce, Miner.nextNonce, h]
  · simp [findNonce, findNonceLoop, Miner.firstNonce, Miner.nextNonce, h]

/-- C9 witness: a concrete INCREMENT miner. -/
theorem increment_mining_loop_exits_immediately_w :
    ((Miner.mk [] [] .increment [] 3 (fun _ => 5) 0).firstNonce.nextNonce).1 = some 0 ∧
    findNonce cTriv 7 (Miner.mk [] [] .increment [] 3 (fun _ => 5) 0) gBlock
      (fun _ => false) = .ok (.exhausted, []) :=
  increment_mining_loop_exits_immediately cTriv
    (Miner.mk [] [] .increment [] 3 (fun _ => 5) 0) gBlock (fun _ => false) 6 rfl

/-- Helper for C10: whenever the mining loop returns normally, it never
returns the found outcome, and every nonce it tested fails the
proof-of-work predicate (a winning nonce routes into the missing
set_nonce attribute and errors instead). -/
theorem findNonceLoop_ok_no_found (c : Crypto) (blk : Block) (flags : Nat → Bool) :
    ∀ (fuel : Nat) (m : Miner) (t : Nat) (tested : List Nat) (res : MineOutcome)
      (tested2 : List Nat),
      findNonceLoop c fuel m blk flags t tested = .ok (res, tested2) →
      (∀ n ∈ tested, validNonce c blk n = false) →
      (∀ b, res ≠ .found b) ∧ ∀ n ∈ tested2, validNonce c blk n = false := by
  intro fuel
  induction fuel with
  | zero =>
    intro m t tested res tested2 h hall
    simp only [findNonceLoop] at h
    cases h
    exact ⟨(fun b hb => by cases hb), hall⟩
  | succ fuel ih =>
    intro m t tested res tested2 h hall
    simp only [findNonceLoop] at h
    cases hnn : m.nextNonce with
    | mk nonceOpt m1 =>
      rw [hnn] at h
      cases nonceOpt with
      | none =>
        dsimp only [] at h
        cases h
        exact ⟨(fun b hb => by cases hb), hall⟩
      | some nonce =>
        dsimp only [] at h
        by_cases h0 : nonce = 0
        · rw [if_pos h0] at h
          cases h
          exact ⟨(fun b hb => by cases hb), hall⟩
        · rw [if_neg h0] at h
          by_cases hv : validNonce c blk nonce
          · rw [if_pos hv] at h
            simp [Block.setNonce] at h
          · rw [if_neg hv] at h
            have hall1 : ∀ n ∈ tested ++ [nonce], validNonce c blk n = false := by
              intro n hn
              rcases List.mem_append.mp hn with hn | hn
              · exact hall n hn
              · rcases List.mem_singleton.mp hn with rfl
                exact Bool.eq_false_iff.mpr hv
            by_cases hf : flags t
            · rw [if_pos hf] at h
              cases h
              exact ⟨(fun b hb => by cases hb), hall1⟩
            · rw [if_neg hf] at h
              exact ih m1 (t + 1) (tested ++ [nonce]) res tested2 h hall1

/-- C10: the Block class has no set_nonce method, so the success path
of node.find_nonce (reached exactly when valid_nonce accepts) raises
AttributeError: whenever find_nonce returns at all, its result is never
the mined-block success outcome and every nonce it tested had failed
the proof-of-work test. -/
theorem find_nonce_success_path_unreachable (c : Crypto) (fuel : Nat) (m : Miner)
    (blk : Block) (flags : Nat → Bool) (res : MineOutcome) (tested : List Nat)
    (h : findNonce c fuel m blk flags = .ok (res, tested)) :
    (∀ b, res ≠ .found b) ∧ ∀ n ∈ tested, validNonce c blk n = false :=
  findNonceLoop_ok_no_found c blk flags fuel m.firstNonce 0 [] res tested h
    (by intro n hn; cases hn)

/-- C10 witness: a RANDOM miner whose first draw is 7 under a hash that
fails proof-of-work, with the chain-modified flag raised: find_nonce
returns the aborted outcome, which is not the found outcome, and the
single tested nonce failed valid_nonce. -/
theorem find_nonce_success_path_unreachable_w :
    (∀ b, MineOutcome.aborted ≠ MineOutcome.found b) ∧
    ∀ n ∈ [7], validNonce cLose gBlock n = false :=
  find_nonce_success_path_unreachable cLose 3
    (Miner.mk [] [] .random [] 0 (fun _ => 7) 0) gBlock (fun _ => true)
    .aborted [7] (by rfl)

/-- C2 counterexample theorem: the claim that every accepted coinbase
pays exactly MINING_REWARD fails on this input. -/
theorem coinbase_amount_unchecked :
    verifyTransaction cTriv [] cb7 true = true ∧
    cb7.outputs.map (fun o => o.amount) ≠ [MINING_REWARD] := by
  exact ⟨by rfl, by decide⟩

/-- C2 amended: a coinbase accepted by verify_transaction has zero
inputs and exactly one output with a non-negative amount (the amount is
not compared to MINING_REWARD); separately, the miner's
generate_coinbase_txn always pays exactly MINING_REWARD. -/
theorem verify_coinbase_shape (c : Crypto) (tm : TxnMap) (t : Transaction)
    (h : verifyTransaction c tm t true = true) :
    (t.inputs = [] ∧ t.outputs.length = 1 ∧ ∀ o ∈ t.outputs, 0 ≤ o.amount) ∧
    ∀ pub pri, (generateCoinbaseTxn c pub pri).outputs.map (fun o => o.amount)
      = [MINING_REWARD] := by
  constructor
  · obtain ⟨ins, outs, tid⟩ := t
    unfold verifyTransaction at h
    cases ins with
    | cons i rest => simp at h
    | nil =>
      cases outs with
      | nil => simp at h
      | cons o orest =>
        cases orest with
        | cons o2 r2 => simp at h
        | nil =>
          refine ⟨rfl, rfl, ?_⟩
          intro o' ho'
          rcases List.mem_singleton.mp ho' with rfl
          by_cases hneg : o'.amount < 0
          · simp [checkInputs, checkOutputs, hneg] at h
          · omega
  · intro pub pri
    simp [generateCoinbaseTxn, Transaction.sign, MINING_REWARD]

/-- C2 witness: the demo genesis coinbase is accepted, so the amended
conclusions hold at it. -/
theorem verify_coinbase_shape_w :
    ((gTxn.inputs = [] ∧ gTxn.outputs.length = 1 ∧ ∀ o ∈ gTxn.outputs, 0 ≤ o.amount) ∧
     ∀ pub pri, (generateCoinbaseTxn cTriv pub pri).outputs.map (fun o => o.amount)
       = [MINING_REWARD]) :=
  verify_coinbase_shape cTriv [] gTxn (by rfl)

/-- C5 counterexample: a fully valid block at height exactly
head.height minus MAX_BLOCKS_BEHIND (the claimed lower end of the
retained interval) is rejected with the state untouched, i.e. by the
reorg-horizon guard alone: had the guard passed, the levels list would
have been extended before any other outcome. -/
theorem horizon_boundary_rejected :
    insertBlock 5 cTriv hiState gBlock = some (.rejected, hiState) ∧
    gBlock.height = hiState.headBlock.data.height - MAX_BLOCKS_BEHIND ∧
    (verifyBlock cTriv hiState.transactions gBlock).map (fun p => p.1) = some true :=
  ⟨by rfl, by rfl, by rfl⟩

/-- C5 amended: insert_block_node auto-rejects, untouched, exactly the
blocks of height at most max_height minus MAX_BLOCKS_BEHIND; every
strictly higher block passes the reorg-horizon guard into the body of
the insertion (where it may still be rejected for other reasons).  The
retained interval is therefore open at its lower end. -/
theorem insert_horizon_guard (fuel : Nat) (c : Crypto) (st : ChainState)
    (node : ChainNode) :
    (node.data.height ≤ st.maxHeight - MAX_BLOCKS_BEHIND →
      insertBlockNode fuel c st node = some (.rejected, st)) ∧
    (st.maxHeight - MAX_BLOCKS_BEHIND < node.data.height →
      insertBlockNode fuel c st node = insertBlockBody fuel c st node) := by
  constructor
  · intro h
    rw [insertBlockNode, if_pos h]
  · intro h
    rw [insertBlockNode, if_neg (by omega)]

/-- C5 witness for both directions of the amended guard. -/
theorem insert_horizon_guard_w :
    insertBlockNode 5 cTriv hiState (ChainNode.mk none gBlock) = some (.rejected, hiState) ∧
    insertBlockNode 5 cTriv startState (ChainNode.mk none gBlock)
      = insertBlockBody 5 cTriv startState (ChainNode.mk none gBlock) :=
  ⟨(insert_horizon_guard 5 cTriv hiState (ChainNode.mk none gBlock)).1 (by decide),
   (insert_horizon_guard 5 cTriv startState (ChainNode.mk none gBlock)).2 (by decide)⟩

/-! Claim theorem: the head/transaction-map desynchronisation (C1). -/

/-- C1: inserting an invalid block whose resolved predecessor sits one
level below the head moves the transaction map to the predecessor's
branch and then rejects without moving it back: afterwards the head
branch still contains the height-1 coinbase, but the transaction map
holds only the genesis coinbase.  The map is not restored to the head's
branch on rejection. -/
theorem insert_reject_desyncs_map :
    demoRun.map (fun p =>
      (p.1, decide (b1Txn.txn_id ∈ branchTxnKeys p.2.headBlock),
       assocMember p.2.transactions b1Txn.txn_id,
       assocMember p.2.transactions gTxn.txn_id))
      = some (.rejected, true, false, true) := by rfl

/-- Bridge: the inner output loop continued by a scan over any
remaining coins equals the scan over this transaction's owned coins
prepended to the remaining ones. -/
theorem findCoinsInner_scan (pk : ByteL) (target : Int) (t : Transaction) :
    ∀ (os : List TxnOutput) (i : Nat) (tot : Int) (acc : List (Transaction × Nat))
      (rest : List (Transaction × Nat × Int)),
      (match findCoinsInner pk target t os i tot acc with
       | .inl found => found
       | .inr (tot1, acc1) => scanCoins target rest tot1 acc1)
      = scanCoins target (ownedCoinsFrom pk t i os ++ rest) tot acc := by
  intro os
  induction os with
  | nil => intro i tot acc rest; rfl
  | cons o os ih =>
    intro i tot acc rest
    by_cases hpk : o.pub_key = pk
    · by_cases hsp : o.spent
      · have hskip : ¬(o.pub_key = pk ∧ o.spent = false) := by simp [hsp]
        rw [findCoinsInner, if_neg (by simp [hpk]), if_pos hsp,
          ownedCoinsFrom, if_neg hskip]
        exact ih (i + 1) tot acc rest
      · have hkeep : o.pub_key = pk ∧ o.spent = false := ⟨hpk, by simp [hsp]⟩
        rw [findCoinsInner, if_neg (by simp [hpk]), if_neg hsp,
          ownedCoinsFrom, if_pos hkeep]
        by_cases hreach : target ≤ tot + o.amount
        · rw [if_pos hreach]
          dsimp only [List.cons_append, scanCoins]
          rw [if_pos hreach]
        · rw [if_neg hreach]
          dsimp only [List.cons_append, scanCoins]
          rw [if_neg hreach]
          exact ih (i + 1) (tot + o.amount) (acc ++ [(t, i)]) rest
    · rw [findCoinsInner, if_pos (by simp [hpk]),
        ownedCoinsFrom, if_neg (by simp [hpk])]
      exact ih (i + 1) tot acc rest

/-- Bridge: the outer loop is the scan over the flattened owned-unspent
coin list. -/
theorem findCoinsOuter_scan (pk : ByteL) (target : Int) :
    ∀ (txns : List Transaction) (tot : Int) (acc : List (Transaction × Nat)),
      findCoinsOuter pk target txns tot acc
      = scanCoins target (txns.flatMap (fun t => ownedCoinsFrom pk t 0 t.outputs)) tot acc := by
  intro txns
  induction txns with
  | nil => intro tot acc; rfl
  | cons t rest ih =>
    intro tot acc
    have l1 := findCoinsInner_scan pk target t t.outputs 0 tot acc
      (rest.flatMap (fun t => ownedCoinsFrom pk t 0 t.outputs))
    rw [List.flatMap_cons]
    rw [findCoinsOuter]
    cases hinner : findCoinsInner pk target t t.outputs 0 tot acc with
    | inl found =>
      rw [hinner] at l1
      dsimp only [] at l1 ⊢
      exact l1
    | inr p =>
      obtain ⟨tot1, acc1⟩ := p
      rw [hinner] at l1
      dsimp only [] at l1 ⊢
      rw [ih tot1 acc1]
      exact l1

/-- Shifting a find? over a shifted range. -/
theorem find?_range'_shift (p : Nat → Bool) :
    ∀ (n s : Nat),
      (List.range' (s + 1) n).find? p
      = ((List.range' s n).find? (fun k => p (k + 1))).map (fun k => k + 1) := by
  intro n
  induction n with
  | zero => intro s; rfl
  | succ n ih =>
    intro s
    rw [List.range'_succ, List.range'_succ]
    by_cases hp : p (s + 1)
    · rw [List.find?_cons_of_pos _ hp, List.find?_cons_of_pos _ (by simpa using hp)]
      rfl
    · rw [List.find?_cons_of_neg _ hp, List.find?_cons_of_neg _ (by simpa using hp)]
      exact ih (s + 1)

/-- One unfolding step of the first-hit search over a shifted range. -/
theorem find?_range'_one (p : Nat → Bool) (n : Nat) :
    (List.range' 1 (n + 1)).find? p
    = if p 1 then some 1
      else ((List.range' 1 n).find? (fun k => p (k + 1))).map (fun k => k + 1) := by
  rw [List.range'_succ]
  by_cases hp : p 1
  · rw [List.find?_cons_of_pos _ hp, if_pos hp]
  · rw [List.find?_cons_of_neg _ hp, if_neg hp]
    exact find?_range'_shift p n 1

/-- The scan is the first-nonempty-prefix search, with the running
total and accumulator made explicit. -/
theorem scanCoins_firstReach (target : Int) :
    ∀ (cs : List (Transaction × Nat × Int)) (tot : Int) (acc : List (Transaction × Nat)),
      scanCoins target cs tot acc
      = (match (List.range' 1 cs.length).find?
            (fun k => decide (target ≤ tot + sumAmounts (cs.take k))) with
         | some k => acc ++ (cs.take k).map (fun c => (c.1, c.2.1))
         | none => []) := by
  intro cs
  induction cs with
  | nil => intro tot acc; rfl
  | cons coin cs ih =>
    intro tot acc
    rw [List.length_cons, find?_range'_one]
    by_cases hreach : target ≤ tot + coin.2.2
    · rw [scanCoins, if_pos hreach,
        if_pos (show decide (target ≤ tot + sumAmounts ((coin :: cs).take 1)) = true by
          simp [sumAmounts, hreach])]
      simp [sumAmounts]
    · rw [scanCoins, if_neg hreach,
        if_neg (show ¬decide (target ≤ tot + sumAmounts ((coin :: cs).take 1)) = true by
          simp [sumAmounts, hreach])]
      have hpred : (fun k => decide (target ≤ tot + sumAmounts ((coin :: cs).take (k + 1))))
          = (fun k => decide (target ≤ (tot + coin.2.2) + sumAmounts (cs.take k))) := by
        funext k
        simp only [List.take_succ_cons, sumAmounts, List.map_cons, List.sum_cons,
          decide_eq_decide]
        omega
      rw [hpred, ih (tot + coin.2.2) (acc ++ [(coin.1, coin.2.1)])]
      cases hfind : (List.range' 1 cs.length).find?
          (fun k => decide (target ≤ tot + coin.2.2 + sumAmounts (cs.take k))) with
      | none => rfl
      | some k =>
        dsimp only [Option.map]
        rw [List.take_succ_cons, List.map_cons]
        simp [List.append_assoc]

/-- A prefix of the coin list never sums to more than the whole list
when every amount is non-negative. -/
theorem sumAmounts_take_le (l : List (Transaction × Nat × Int))
    (h : ∀ c ∈ l, 0 ≤ c.2.2) (k : Nat) :
    sumAmounts (l.take k) ≤ sumAmounts l := by
  have hs : sumAmounts l = sumAmounts (l.take k) + sumAmounts (l.drop k) := by
    conv_lhs => rw [← List.take_append_drop k l]
    rw [sumAmounts, List.map_append, List.sum_append]
    rfl
  have hd : 0 ≤ sumAmounts (l.drop k) := by
    apply List.sum_nonneg
    intro x hx
    rcases List.mem_map.mp hx with ⟨c, hc, rfl⟩
    exact h c (List.mem_of_mem_drop hc)
  omega

/-- C6 (amended): find_coins returns exactly the first nonempty prefix
of the wallet-owned unspent coins (in loaded order) whose summed
amounts reach the target, the empty list when no nonempty prefix does;
in particular, with non-negative coin amounts (as on any verified
chain) an insufficient total yields the empty list. -/
theorem find_coins_first_reaching (w : Wallet) (target : Int) :
    w.findCoins target = firstReachingSelection (ownedUnspentCoins w) target ∧
    ((∀ coin ∈ ownedUnspentCoins w, 0 ≤ coin.2.2) →
      sumAmounts (ownedUnspentCoins w) < target → w.findCoins target = []) := by
  have hmain : w.findCoins target = firstReachingSelection (ownedUnspentCoins w) target := by
    rw [Wallet.findCoins, findCoinsOuter_scan, scanCoins_firstReach]
    have hpred : (fun k => decide (target ≤ 0 + sumAmounts ((ownedUnspentCoins w).take k)))
        = (fun k => decide (target ≤ sumAmounts ((ownedUnspentCoins w).take k))) := by
      funext k
      simp
    rw [show (w.transactions.flatMap fun t => ownedCoinsFrom w.pub_key t 0 t.outputs)
        = ownedUnspentCoins w from rfl]
    rw [hpred, firstReachingSelection]
    cases (List.range' 1 (ownedUnspentCoins w).length).find?
        (fun k => decide (target ≤ sumAmounts ((ownedUnspentCoins w).take k))) with
    | none => rfl
    | some k => simp
  refine ⟨hmain, ?_⟩
  intro hnn hlt
  rw [hmain, firstReachingSelection]
  have hnone : (List.range' 1 (ownedUnspentCoins w).length).find?
      (fun k => decide (target ≤ sumAmounts ((ownedUnspentCoins w).take k))) = none := by
    rw [List.find?_eq_none]
    intro k hk
    have := sumAmounts_take_le (ownedUnspentCoins w) hnn k
    simp only [decide_eq_true_eq]
    omega
  rw [hnone]

/-- C6 witness: a one-coin wallet, target beyond its funds. -/
theorem find_coins_first_reaching_w :
    Wallet.findCoins ⟨[1], [gTxn]⟩ 100
      = firstReachingSelection (ownedUnspentCoins ⟨[1], [gTxn]⟩) 100 ∧
    Wallet.findCoins ⟨[1], [gTxn]⟩ 100 = [] :=
  ⟨(find_coins_first_reaching ⟨[1], [gTxn]⟩ 100).1,
   (find_coins_first_reaching ⟨[1], [gTxn]⟩ 100).2 (by decide) (by decide)⟩

/-- C6 counterexample: with target 0 and one owned unspent coin, the
first prefix (in the literal sense, the empty prefix included) whose
sum reaches the target is the empty one, but find_coins returns the
one-coin prefix: the claim read literally fails for non-positive
targets. -/
theorem find_coins_target_zero_cex :
    Wallet.findCoins ⟨[1], [gTxn]⟩ 0
      ≠ claimFirstReach (ownedUnspentCoins ⟨[1], [gTxn]⟩) 0 ∧
    Wallet.findCoins ⟨[1], [gTxn]⟩ 0 = [(gTxn, 0)] ∧
    claimFirstReach (ownedUnspentCoins ⟨[1], [gTxn]⟩) 0 = [] :=
  ⟨by decide, by rfl, by rfl⟩

/-- Round trip of one hex digit. -/
theorem hexDigitVal_hexDigitChar (d : Nat) (h : d < 16) :
    hexDigitVal (hexDigitChar d) = some d := by
  unfold hexDigitChar hexDigitVal
  by_cases h10 : d < 10
  · rw [if_pos h10, if_pos (by omega : 48 ≤ 48 + d ∧ 48 + d ≤ 57)]
    congr 1
    omega
  · rw [if_neg h10, if_neg (by omega : ¬(48 ≤ 87 + d ∧ 87 + d ≤ 57)),
      if_pos (by omega : 97 ≤ 87 + d ∧ 87 + d ≤ 102)]
    congr 1
    omega

/-- bytes.fromhex undoes bytes.hex on genuine byte strings. -/
theorem hexToBytes_bytesToHex (bs : ByteL) (h : validBytes bs) :
    hexToBytes (bytesToHex bs) = some bs := by
  induction bs with
  | nil => rfl
  | cons b rest ih =>
    have hb : b < 256 := h b (List.mem_cons_self b rest)
    have hrest : validBytes rest := fun x hx => h x (List.mem_cons_of_mem _ hx)
    show hexToBytes (hexDigitChar (b / 16) :: hexDigitChar (b % 16) :: bytesToHex rest)
      = some (b :: rest)
    rw [hexToBytes, hexDigitVal_hexDigitChar _ (by omega),
      hexDigitVal_hexDigitChar _ (by omega), ih hrest]
    dsimp only []
    have hbyte : 16 * (b / 16) + b % 16 = b := by omega
    rw [hbyte]

/-- Round trip of one serialized input. -/
theorem txnInput_fromJson_toJson (i : TxnInput) (h : i.wf) :
    TxnInput.fromJson (TxnInput.toJson i) = some i := by
  show (hexToBytes (bytesToHex i.txn_id)).map (fun bs => TxnInput.mk bs i.index) = some i
  rw [hexToBytes_bytesToHex _ h]
  rfl

/-- Round trip of one serialized output (the spent flag comes back at
its constructor default). -/
theorem txnOutput_fromJson_toJson (o : TxnOutput) (h : o.wf) :
    TxnOutput.fromJson (TxnOutput.toJson o) = some { o with spent := false } := by
  obtain ⟨pk, am, sig, sp⟩ := o
  obtain ⟨hpk, hsig, hsb⟩ := h
  cases sig with
  | none => cases hsig
  | some s =>
    show (match hexToBytes (bytesToHex pk), hexToBytes (bytesToHex s) with
          | some pb, some sb => some (TxnOutput.mk pb am (some sb) false)
          | _, _ => none) = some (TxnOutput.mk pk am (some s) false)
    rw [hexToBytes_bytesToHex _ hpk, hexToBytes_bytesToHex _ (by simpa using hsb)]

/-- Element-wise parsing of a mapped list. -/
theorem parseAll_map {α β : Type} (f : JVal → Option α) (g : β → JVal) (σ : β → α) :
    ∀ (l : List β), (∀ x ∈ l, f (g x) = some (σ x)) →
      parseAll f (l.map g) = some (l.map σ) := by
  intro l
  induction l with
  | nil => intro _; rfl
  | cons x xs ih =>
    intro h
    rw [List.map_cons, parseAll, h x (List.mem_cons_self x xs),
      ih (fun y hy => h y (List.mem_cons_of_mem _ hy))]
    rfl

/-- Round trip of one serialized transaction. -/
theorem transaction_fromJson_toJson (t : Transaction) (h : t.wf) :
    Transaction.fromJson (Transaction.toJson t) = some (stripTxn t) := by
  obtain ⟨ins, outs, tid⟩ := t
  obtain ⟨hid, hidb, hins, houts⟩ := h
  cases tid with
  | none => cases hid
  | some idb =>
    show (match hexToBytes (bytesToHex idb),
            parseAll TxnInput.fromJson (ins.map TxnInput.toJson),
            parseAll TxnOutput.fromJson (outs.map TxnOutput.toJson) with
          | some idb, some pins, some pouts => some (Transaction.mk pins pouts (some idb))
          | _, _, _ => none)
      = some (stripTxn (Transaction.mk ins outs (some idb)))
    rw [hexToBytes_bytesToHex _ (by simpa using hidb),
      parseAll_map TxnInput.fromJson TxnInput.toJson (fun i => i) ins
        (fun i hi => txnInput_fromJson_toJson i (hins i hi)),
      parseAll_map TxnOutput.fromJson TxnOutput.toJson
        (fun o => { o with spent := false }) outs
        (fun o ho => txnOutput_fromJson_toJson o (houts o ho))]
    rw [show ins.map (fun i => i) = ins from List.map_id' ins]
    rfl

/-- Round trip of one serialized block. -/
theorem block_fromJson_toJson (b : Block) (h : b.wf) :
    (Block.toJson b).bind Block.fromJson = some (stripBlock b) := by
  obtain ⟨prev, ht, nn, txns, bh⟩ := b
  obtain ⟨hprev, hbh, hbhb, htxns⟩ := h
  cases bh with
  | none => cases hbh
  | some hb =>
    show (match hexToBytes (bytesToHex hb), hexToBytes (bytesToHex prev),
            parseAll Transaction.fromJson (txns.map Transaction.toJson) with
          | some hbb, some pb, some pts =>
            if 0 ≤ (nn : Int) then some (Block.mk pb ht (nn : Int).toNat pts (some hbb))
            else none
          | _, _, _ => none)
      = some (stripBlock (Block.mk prev ht nn txns (some hb)))
    rw [hexToBytes_bytesToHex _ (by simpa using hbhb),
      hexToBytes_bytesToHex _ (by simpa using hprev),
      parseAll_map Transaction.fromJson Transaction.toJson stripTxn txns
        (fun t htm => transaction_fromJson_toJson t (by simpa using htxns t htm))]
    dsimp only []
    rw [if_pos (Int.natCast_nonneg nn)]
    rw [show ((nn : Int)).toNat = nn from Int.toNat_natCast nn]
    rfl

/-- Stripping the spent flags does not change an output's JSON. -/
theorem toJson_strip_comp :
    TxnOutput.toJson ∘ (fun o : TxnOutput => { o with spent := false })
      = TxnOutput.toJson :=
  funext (fun _ => rfl)

/-- Stripping the spent flags does not change a transaction's JSON. -/
theorem stripTxn_toJson (t : Transaction) :
    Transaction.toJson (stripTxn t) = Transaction.toJson t := by
  unfold stripTxn Transaction.toJson
  rw [List.map_map, toJson_strip_comp]

/-- Stripping the spent flags does not change a computed txn_id. -/
theorem stripTxn_computeTxnId (c : Crypto) (t : Transaction) :
    (stripTxn t).computeTxnId c = t.computeTxnId c := by
  unfold stripTxn Transaction.computeTxnId
  rw [List.map_map, toJson_strip_comp]

/-- Stripping the spent flags does not change a block's JSON. -/
theorem stripBlock_toJson (b : Block) :
    Block.toJson (stripBlock b) = Block.toJson b := by
  have hcomp : Transaction.toJson ∘ stripTxn = Transaction.toJson := by
    funext t
    exact stripTxn_toJson t
  unfold stripBlock Block.toJson
  rw [List.map_map, hcomp]

/-- Stripping the spent flags does not change a recomputed block
hash. -/
theorem stripBlock_computeHash (c : Crypto) (b : Block) :
    (stripBlock b).computeHash c = b.computeHash c := by
  have hcomp : Transaction.toJson ∘ stripTxn = Transaction.toJson := by
    funext t
    exact stripTxn_toJson t
  unfold stripBlock Block.computeHash Block.computeHashWith
  rw [List.map_map, hcomp]

/-- C7: serialization round-trips.  For a system-produced transaction
(id and signatures present, genuine bytes) and block (stored hash
present), from_json after to_json succeeds and returns the object with
all serialized fields intact (the unserialized local spent flags come
back at their constructor default), its JSON is unchanged, and its
recomputed txn_id / block hash is unchanged. -/
theorem serialization_round_trip (c : Crypto) (t : Transaction) (b : Block)
    (ht : t.wf) (hb : b.wf) :
    Transaction.fromJson (Transaction.toJson t) = some (stripTxn t) ∧
    Transaction.toJson (stripTxn t) = Transaction.toJson t ∧
    (stripTxn t).computeTxnId c = t.computeTxnId c ∧
    (Block.toJson b).bind Block.fromJson = some (stripBlock b) ∧
    Block.toJson (stripBlock b) = Block.toJson b ∧
    (stripBlock b).computeHash c = b.computeHash c :=
  ⟨transaction_fromJson_toJson t ht, stripTxn_toJson t, stripTxn_computeTxnId c t,
   block_fromJson_toJson b hb, stripBlock_toJson b, stripBlock_computeHash c b⟩

/-- C7 witness: the demo genesis coinbase and genesis block. -/
theorem serialization_round_trip_w :
    Transaction.fromJson (Transaction.toJson gTxn) = some (stripTxn gTxn) ∧
    Transaction.toJson (stripTxn gTxn) = Transaction.toJson gTxn ∧
    (stripTxn gTxn).computeTxnId cTriv = gTxn.computeTxnId cTriv ∧
    (Block.toJson gBlock).bind Block.fromJson = some (stripBlock gBlock) ∧
    Block.toJson (stripBlock gBlock) = Block.toJson gBlock ∧
    (stripBlock gBlock).computeHash cTriv = gBlock.computeHash cTriv :=
  serialization_round_trip cTriv gTxn gBlock (by decide) (by decide)

/-! Claim development: verify_block atomicity (C3).  The temporary
applies and reverts inside verify_block are sequences of blind writes
of spent flags at (txn_id, output index) positions, plus one append and
one pop of the verified transaction.  The algebra below shows the
revert phase erases the apply phase exactly. -/

/-- Setting an element back to the value already stored is a no-op. -/
theorem list_set_getElem_self {α : Type} :
    ∀ (l : List α) (n : Nat) (a : α), l[n]? = some a → l.set n a = l := by
  intro l
  induction l with
  | nil => intro n a h; cases h
  | cons x xs ih =>
    intro n a h
    cases n with
    | zero =>
      rw [List.getElem?_cons_zero] at h
      cases h
      rfl
    | succ n =>
      rw [List.getElem?_cons_succ] at h
      show x :: xs.set n a = x :: xs
      rw [ih n a h]

/-- Lookup after a first-match value replacement. -/
theorem assocLookup_adjust {κ α : Type} [DecidableEq κ] :
    ∀ (l : List (κ × α)) (k k' : κ) (f : α → α),
      assocLookup (assocAdjust l k f) k'
      = if k' = k then (assocLookup l k).map f else assocLookup l k' := by
  intro l
  induction l with
  | nil =>
    intro k k' f
    by_cases h : k' = k <;> simp [assocAdjust, assocLookup, h]
  | cons e rest ih =>
    intro k k' f
    obtain ⟨a, v⟩ := e
    by_cases hak : a = k
    · rw [assocAdjust, if_pos hak]
      by_cases hk' : k' = k
      · rw [assocLookup, if_pos (hak.trans hk'.symm), if_pos hk',
          assocLookup, if_pos hak]
        rfl
      · rw [assocLookup, if_neg (fun hh => hk' (hh.symm.trans hak)), if_neg hk',
          assocLookup, if_neg (fun hh => hk' (hh.symm.trans hak))]
    · rw [assocAdjust, if_neg hak]
      by_cases hk' : a = k'
      · rw [assocLookup, if_pos hk', if_neg (fun hh => hak (hk'.trans hh)),
          assocLookup, if_pos hk']
      · rw [assocLookup, if_neg hk', ih k k' f]
        by_cases hkk : k' = k
        · rw [if_pos hkk, if_pos hkk, assocLookup, if_neg hak]
        · rw [if_neg hkk, if_neg hkk, assocLookup, if_neg hk']

/-- Two first-match replacements at the same key compose. -/
theorem assocAdjust_adjust {κ α : Type} [DecidableEq κ] :
    ∀ (l : List (κ × α)) (k : κ) (f g : α → α),
      assocAdjust (assocAdjust l k f) k g = assocAdjust l k (fun v => g (f v)) := by
  intro l
  induction l with
  | nil => intro k f g; rfl
  | cons e rest ih =>
    intro k f g
    obtain ⟨a, v⟩ := e
    by_cases hak : a = k
    · rw [assocAdjust, if_pos hak, assocAdjust, if_pos hak, assocAdjust, if_pos hak]
    · rw [assocAdjust, if_neg hak, assocAdjust, if_neg hak, assocAdjust, if_neg hak,
        ih]

/-- First-match replacements at different keys commute. -/
theorem assocAdjust_comm {κ α : Type} [DecidableEq κ] :
    ∀ (l : List (κ × α)) (k k' : κ) (f g : α → α), k ≠ k' →
      assocAdjust (assocAdjust l k f) k' g = assocAdjust (assocAdjust l k' g) k f := by
  intro l
  induction l with
  | nil => intro k k' f g _; rfl
  | cons e rest ih =>
    intro k k' f g hkk
    obtain ⟨a, v⟩ := e
    by_cases hak : a = k
    · have hak' : ¬a = k' := fun hh => hkk (hak.symm.trans hh)
      rw [assocAdjust, if_pos hak, assocAdjust, if_neg hak', assocAdjust, if_neg hak',
        assocAdjust, if_pos hak]
    · by_cases hak' : a = k'
      · rw [assocAdjust, if_neg hak, assocAdjust, if_pos hak', assocAdjust, if_pos hak',
          assocAdjust, if_neg hak]
      · rw [assocAdjust, if_neg hak, assocAdjust, if_neg hak', assocAdjust, if_neg hak',
          assocAdjust, if_neg hak, ih _ _ _ _ hkk]

/-- A first-match replacement that fixes the stored value is a no-op. -/
theorem assocAdjust_eq_self {κ α : Type} [DecidableEq κ] :
    ∀ (l : List (κ × α)) (k : κ) (f : α → α) (v : α),
      assocLookup l k = some v → f v = v → assocAdjust l k f = l := by
  intro l
  induction l with
  | nil => intro k f v h _; cases h
  | cons e rest ih =>
    intro k f v h hf
    obtain ⟨a, w⟩ := e
    by_cases hak : a = k
    · rw [assocLookup, if_pos hak] at h
      cases h
      rw [assocAdjust, if_pos hak, hf]
    · rw [assocLookup, if_neg hak] at h
      rw [assocAdjust, if_neg hak, ih k f v h hf]

/-- Overwriting the spent flag at the same position twice keeps only
the last write. -/
theorem setCoinSpent_setCoinSpent (outs : List TxnOutput) (n : Nat) (b b' : Bool) :
    setCoinSpent (setCoinSpent outs n b') n b = setCoinSpent outs n b := by
  cases hg : outs[n]? with
  | none =>
    have hin : setCoinSpent outs n b' = outs := by rw [setCoinSpent, hg]
    rw [hin]
  | some o =>
    have hlen : n < outs.length := by
      by_contra hge
      rw [List.getElem?_eq_none (by omega)] at hg
      cases hg
    have hin : setCoinSpent outs n b' = outs.set n { o with spent := b' } := by
      rw [setCoinSpent, hg]
    rw [hin, setCoinSpent, List.getElem?_set_eq_of_lt _ hlen]
    dsimp only []
    rw [List.set_set, setCoinSpent, hg]

/-- Spent-flag writes at different positions of the same list
commute. -/
theorem setCoinSpent_comm (outs : List TxnOutput) (n m : Nat) (b b' : Bool)
    (hnm : n ≠ m) :
    setCoinSpent (setCoinSpent outs n b) m b' = setCoinSpent (setCoinSpent outs m b') n b := by
  cases hgn : outs[n]? with
  | none =>
    have hn : setCoinSpent outs n b = outs := by rw [setCoinSpent, hgn]
    rw [hn]
    cases hgm : outs[m]? with
    | none =>
      have hm : setCoinSpent outs m b' = outs := by rw [setCoinSpent, hgm]
      rw [hm, hn]
    | some om =>
      have hm : setCoinSpent outs m b' = outs.set m { om with spent := b' } := by
        rw [setCoinSpent, hgm]
      rw [hm, setCoinSpent, List.getElem?_set_ne (fun hh => hnm hh.symm), hgn]
  | some onn =>
    have hn : setCoinSpent outs n b = outs.set n { onn with spent := b } := by
      rw [setCoinSpent, hgn]
    rw [hn]
    cases hgm : outs[m]? with
    | none =>
      have hm : setCoinSpent outs m b' = outs := by rw [setCoinSpent, hgm]
      rw [hm, hn, setCoinSpent, List.getElem?_set_ne hnm, hgm]
    | some om =>
      have hm : setCoinSpent outs m b' = outs.set m { om with spent := b' } := by
        rw [setCoinSpent, hgm]
      rw [hm, setCoinSpent, List.getElem?_set_ne hnm, hgm,
        setCoinSpent, List.getElem?_set_ne (fun hh => hnm hh.symm), hgn]
      dsimp only []
      rw [List.set_comm _ _ _ hnm]

/-- A spent write keeps every output list length. -/
theorem setCoinSpent_length (outs : List TxnOutput) (n : Nat) (b : Bool) :
    (setCoinSpent outs n b).length = outs.length := by
  cases hg : outs[n]? with
  | none => rw [setCoinSpent, hg]
  | some o => rw [setCoinSpent, hg, List.length_set]

/-- Overwriting a position twice keeps only the last write. -/
theorem posWrite_posWrite (b b' : Bool) (tm : TxnMap) (p : ByteL × Nat) :
    posWrite b (posWrite b' tm p) p = posWrite b tm p := by
  unfold posWrite spendOne
  rw [assocAdjust_adjust]
  congr 1
  funext t
  dsimp only []
  rw [setCoinSpent_setCoinSpent]

/-- Blind writes at different positions commute. -/
theorem posWrite_comm (b b' : Bool) (tm : TxnMap) (p q : ByteL × Nat) (h : p ≠ q) :
    posWrite b (posWrite b' tm q) p = posWrite b' (posWrite b tm p) q := by
  unfold posWrite spendOne
  by_cases hk : p.1 = q.1
  · have hidx : q.2 ≠ p.2 := fun hh => h (Prod.ext hk hh.symm)
    rw [hk, assocAdjust_adjust, assocAdjust_adjust]
    congr 1
    funext t
    dsimp only []
    rw [setCoinSpent_comm _ _ _ _ _ hidx]
  · exact assocAdjust_comm tm (some q.1) (some p.1) _ _
      (fun hh => hk (Option.some.inj hh).symm)

/-- Lookup through one blind write. -/
theorem assocLookup_posWrite (b : Bool) (tm : TxnMap) (p : ByteL × Nat) (k : Option ByteL) :
    assocLookup (posWrite b tm p) k
    = if k = some p.1 then
        (assocLookup tm (some p.1)).map
          (fun t => { t with outputs := setCoinSpent t.outputs p.2 b })
      else assocLookup tm k := by
  unfold posWrite spendOne
  rw [assocLookup_adjust]

/-- Blind writes change no membership. -/
theorem assocMember_posWrite (b : Bool) (tm : TxnMap) (p : ByteL × Nat) (k : Option ByteL) :
    assocMember (posWrite b tm p) k = assocMember tm k := by
  unfold assocMember
  rw [assocLookup_posWrite]
  by_cases hk : k = some p.1
  · rw [if_pos hk, hk]
    cases assocLookup tm (some p.1) <;> rfl
  · rw [if_neg hk]

/-- Blind writes change no membership (sequences). -/
theorem assocMember_posWriteAll (b : Bool) :
    ∀ (ps : List (ByteL × Nat)) (tm : TxnMap) (k : Option ByteL),
      assocMember (posWriteAll b tm ps) k = assocMember tm k := by
  intro ps
  induction ps with
  | nil => intro tm k; rfl
  | cons p rest ih =>
    intro tm k
    rw [posWriteAll, ih, assocMember_posWrite]

/-- Blind writes do not change input resolution. -/
theorem inputPos_posWrite (b : Bool) (tm : TxnMap) (p : ByteL × Nat) (i : TxnInput) :
    inputPos (posWrite b tm p) i = inputPos tm i := by
  unfold inputPos
  rw [assocLookup_posWrite]
  by_cases hk : (some i.txn_id : Option ByteL) = some p.1
  · rw [if_pos hk, hk]
    cases hl : assocLookup tm (some p.1) with
    | none => rfl
    | some t0 =>
      dsimp only [Option.map, Option.bind]
      rw [setCoinSpent_length]
  · rw [if_neg hk]

/-- Blind write sequences do not change input resolution. -/
theorem inputPos_posWriteAll (b : Bool) :
    ∀ (ps : List (ByteL × Nat)) (tm : TxnMap) (i : TxnInput),
      inputPos (posWriteAll b tm ps) i = inputPos tm i := by
  intro ps
  induction ps with
  | nil => intro tm i; rfl
  | cons p rest ih =>
    intro tm i
    rw [posWriteAll, ih, inputPos_posWrite]

/-- What a resolved position says. -/
theorem inputPos_some (tm : TxnMap) (i : TxnInput) (p : ByteL × Nat)
    (h : inputPos tm i = some p) :
    ∃ prev n, assocLookup tm (some i.txn_id) = some prev ∧
      pyIndex i.index prev.outputs.length = some n ∧ p = (i.txn_id, n) := by
  unfold inputPos at h
  cases hl : assocLookup tm (some i.txn_id) with
  | none => rw [hl] at h; cases h
  | some prev =>
    rw [hl] at h
    dsimp only [Option.bind] at h
    cases hp : pyIndex i.index prev.outputs.length with
    | none => rw [hp] at h; cases h
    | some n =>
      rw [hp] at h
      dsimp only [Option.map] at h
      cases h
      exact ⟨prev, n, rfl, hp, rfl⟩

/-- Writing false over a coin already unspent changes nothing. -/
theorem posWrite_noop (tm : TxnMap) (p : ByteL × Nat) (coin : TxnOutput)
    (hc : readCoin tm p = some coin) (hs : coin.spent = false) :
    posWrite false tm p = tm := by
  unfold readCoin at hc
  cases hl : assocLookup tm (some p.1) with
  | none => rw [hl] at hc; cases hc
  | some t0 =>
    rw [hl] at hc
    dsimp only [Option.bind] at hc
    unfold posWrite spendOne
    apply assocAdjust_eq_self tm (some p.1) _ t0 hl
    have houts : setCoinSpent t0.outputs p.2 false = t0.outputs := by
      rw [setCoinSpent, hc]
      dsimp only []
      have hcoin : { coin with spent := false } = coin := by
        obtain ⟨pk, am, sg, sp⟩ := coin
        cases hs
        rfl
      rw [hcoin]
      exact list_set_getElem_self _ _ _ hc
    show { t0 with outputs := setCoinSpent t0.outputs p.2 false } = t0
    rw [houts]

/-- Writing false over already-unspent coins changes nothing. -/
theorem posWriteAll_noop :
    ∀ (ps : List (ByteL × Nat)) (tm : TxnMap),
      (∀ p ∈ ps, ∃ coin, readCoin tm p = some coin ∧ coin.spent = false) →
      posWriteAll false tm ps = tm := by
  intro ps
  induction ps with
  | nil => intro tm _; rfl
  | cons p rest ih =>
    intro tm h
    obtain ⟨coin, hc, hs⟩ := h p (List.mem_cons_self p rest)
    rw [posWriteAll, posWrite_noop tm p coin hc hs]
    exact ih tm (fun q hq => h q (List.mem_cons_of_mem _ hq))

/-- A later false-phase over the same positions absorbs any earlier
single write at one of them. -/
theorem posWriteAll_absorb (b : Bool) :
    ∀ (ps : List (ByteL × Nat)) (M : TxnMap) (p : ByteL × Nat), p ∈ ps →
      posWriteAll false (posWrite b M p) ps = posWriteAll false M ps := by
  intro ps
  induction ps with
  | nil => intro M p hp; cases hp
  | cons q rest ih =>
    intro M p hp
    by_cases hpq : p = q
    · subst hpq
      rw [posWriteAll, posWrite_posWrite, posWriteAll]
    · have hmem : p ∈ rest := by
        rcases List.mem_cons.mp hp with h | h
        · exact absurd h hpq
        · exact h
      rw [posWriteAll, posWrite_comm false b M q p (fun hh => hpq hh.symm)]
      rw [ih (posWrite false M q) p hmem, posWriteAll]

/-- A later false-phase over the positions absorbs a whole earlier
write phase over (a subset of) them. -/
theorem posWriteAll_covered (b : Bool) :
    ∀ (qs ps : List (ByteL × Nat)) (M : TxnMap), (∀ p ∈ qs, p ∈ ps) →
      posWriteAll false (posWriteAll b M qs) ps = posWriteAll false M ps := by
  intro qs
  induction qs with
  | nil => intro ps M _; rfl
  | cons q rest ih =>
    intro ps M hsub
    rw [posWriteAll, ih ps (posWrite b M q) (fun p hp => hsub p (List.mem_cons_of_mem _ hp)),
      posWriteAll_absorb b ps M q (hsub q (List.mem_cons_self q rest))]

/-- The revert phase erases the apply phase exactly, provided every
written coin was unspent to begin with. -/
theorem posWriteAll_cancel (ps : List (ByteL × Nat)) (tm : TxnMap)
    (h : ∀ p ∈ ps, ∃ coin, readCoin tm p = some coin ∧ coin.spent = false) :
    posWriteAll false (posWriteAll true tm ps) ps = tm := by
  rw [posWriteAll_covered true ps ps tm (fun p hp => hp), posWriteAll_noop ps tm h]

/-- The spending loop of apply_transaction succeeds on resolvable
inputs and is the true-write phase over their positions. -/
theorem spendInputs_eq :
    ∀ (ins : List TxnInput) (tm : TxnMap), inputsPresent tm ins →
      spendInputs tm ins = some (posWriteAll true tm (ins.filterMap (inputPos tm))) := by
  intro ins
  induction ins with
  | nil => intro tm _; rfl
  | cons i rest ih =>
    intro tm hpres
    obtain ⟨p, hp⟩ := Option.isSome_iff_exists.mp (hpres i (List.mem_cons_self i rest))
    obtain ⟨prev, n, hl, hpy, rfl⟩ := inputPos_some tm i p hp
    rw [spendInputs, hl]
    dsimp only []
    rw [hpy]
    dsimp only []
    rw [List.filterMap_cons, hp]
    dsimp only []
    rw [posWriteAll]
    have hrest : inputsPresent (spendOne tm i.txn_id n true) rest := by
      intro j hj
      rw [show spendOne tm i.txn_id n true = posWrite true tm (i.txn_id, n) from rfl,
        inputPos_posWrite]
      exact hpres j (List.mem_cons_of_mem _ hj)
    rw [ih (spendOne tm i.txn_id n true) hrest]
    have hmaps : rest.filterMap (inputPos (spendOne tm i.txn_id n true))
        = rest.filterMap (inputPos tm) := by
      apply List.filterMap_congr
      intro j _
      rw [show spendOne tm i.txn_id n true = posWrite true tm (i.txn_id, n) from rfl,
        inputPos_posWrite]
    rw [hmaps]
    rfl

/-- The unspending loop of revert_transaction succeeds on resolvable
inputs and is the false-write phase over their positions. -/
theorem unspendInputs_eq :
    ∀ (ins : List TxnInput) (tm : TxnMap), inputsPresent tm ins →
      unspendInputs tm ins = some (posWriteAll false tm (ins.filterMap (inputPos tm))) := by
  intro ins
  induction ins with
  | nil => intro tm _; rfl
  | cons i rest ih =>
    intro tm hpres
    obtain ⟨p, hp⟩ := Option.isSome_iff_exists.mp (hpres i (List.mem_cons_self i rest))
    obtain ⟨prev, n, hl, hpy, rfl⟩ := inputPos_some tm i p hp
    rw [unspendInputs, hl]
    dsimp only []
    rw [hpy]
    dsimp only []
    rw [List.filterMap_cons, hp]
    dsimp only []
    rw [posWriteAll]
    have hrest : inputsPresent (spendOne tm i.txn_id n false) rest := by
      intro j hj
      rw [show spendOne tm i.txn_id n false = posWrite false tm (i.txn_id, n) from rfl,
        inputPos_posWrite]
      exact hpres j (List.mem_cons_of_mem _ hj)
    rw [ih (spendOne tm i.txn_id n false) hrest]
    have hmaps : rest.filterMap (inputPos (spendOne tm i.txn_id n false))
        = rest.filterMap (inputPos tm) := by
      apply List.filterMap_congr
      intro j _
      rw [show spendOne tm i.txn_id n false = posWrite false tm (i.txn_id, n) from rfl,
        inputPos_posWrite]
    rw [hmaps]
    rfl

/-- Popping a freshly appended entry returns the map it was appended
to. -/
theorem assocPop_append {κ α : Type} [DecidableEq κ] :
    ∀ (l : List (κ × α)) (k : κ) (v : α), assocMember l k = false →
      assocPop (l ++ [(k, v)]) k = some (v, l) := by
  intro l
  induction l with
  | nil => intro k v _; rw [List.nil_append, assocPop, if_pos rfl]
  | cons e rest ih =>
    intro k v hmem
    obtain ⟨a, w⟩ := e
    have hak : ¬a = k := by
      intro hh
      rw [assocMember, assocLookup, if_pos hh] at hmem
      cases hmem
    have hrest : assocMember rest k = false := by
      rw [assocMember, assocLookup, if_neg hak] at hmem
      exact hmem
    rw [List.cons_append, assocPop, if_neg hak, ih k v hrest]
    rfl

/-- In-range non-negative indices resolve to their natural value. -/
theorem pyIndex_of_bounds (idx : Int) (len : Nat)
    (h : ¬(idx < 0 ∨ (len : Int) ≤ idx)) : pyIndex idx len = some idx.toNat := by
  unfold pyIndex
  rw [if_pos (by omega : (0 : Int) ≤ idx), if_pos (by omega : idx < (len : Int))]

/-- What a successful verify_transaction input loop certifies for each
input: installed predecessor, in-range index, unspent coin. -/
theorem checkInputs_ok (tm : TxnMap) :
    ∀ (ins : List TxnInput) (sender : Option ByteL) (tot : Int)
      (r : Option ByteL × Int),
      checkInputs tm ins sender tot = some r →
      ∀ i ∈ ins, ∃ prev, assocLookup tm (some i.txn_id) = some prev ∧
        ¬(i.index < 0 ∨ (prev.outputs.length : Int) ≤ i.index) ∧
        ∃ coin, prev.outputs[i.index.toNat]? = some coin ∧ coin.spent = false := by
  intro ins
  induction ins with
  | nil => intro sender tot r _ i hi; cases hi
  | cons i rest ih =>
    intro sender tot r h
    rw [checkInputs] at h
    cases hl : assocLookup tm (some i.txn_id) with
    | none => rw [hl] at h; cases h
    | some prev =>
      rw [hl] at h
      dsimp only [] at h
      by_cases hb : i.index < 0 ∨ (prev.outputs.length : Int) ≤ i.index
      · rw [if_pos hb] at h; cases h
      · rw [if_neg hb] at h
        cases hg : prev.outputs[i.index.toNat]? with
        | none => rw [hg] at h; cases h
        | some coin =>
          rw [hg] at h
          dsimp only [] at h
          have hfacts : coin.spent = false ∧
              ∃ s' t', checkInputs tm rest s' t' = some r := by
            cases sender with
            | none =>
              dsimp only [] at h
              by_cases hs : coin.spent
              · rw [if_pos hs] at h; cases h
              · rw [if_neg hs] at h
                exact ⟨Bool.eq_false_iff.mpr hs, _, _, h⟩
            | some pk =>
              dsimp only [] at h
              by_cases hpk : pk ≠ coin.pub_key
              · rw [if_pos hpk] at h; cases h
              · rw [if_neg hpk] at h
                by_cases hs : coin.spent
                · rw [if_pos hs] at h; cases h
                · rw [if_neg hs] at h
                  exact ⟨Bool.eq_false_iff.mpr hs, _, _, h⟩
          obtain ⟨hspent, s', t', hcont⟩ := hfacts
          intro i' hi'
          rcases List.mem_cons.mp hi' with rfl | hmem
          · exact ⟨prev, hl, hb, coin, hg, hspent⟩
          · exact ih s' t' r hcont i' hmem

/-- A transaction accepted by verify_transaction is new to the map and
its input loop succeeded. -/
theorem verifyTransaction_facts (c : Crypto) (tm : TxnMap) (t : Transaction)
    (ic : Bool) (h : verifyTransaction c tm t ic = true) :
    assocMember tm t.txn_id = false ∧
    ∃ s r, checkInputs tm t.inputs s 0 = some r := by
  unfold verifyTransaction at h
  by_cases h1 : assocMember tm t.txn_id
  · rw [if_pos h1] at h; simp at h
  · refine ⟨by simpa using h1, ?_⟩
    rw [if_neg h1] at h
    by_cases h2 : t.txn_id ≠ some (t.computeTxnId c)
    · rw [if_pos h2] at h; simp at h
    · rw [if_neg h2] at h
      rcases hm : (if ic = true then
          (match t.inputs, t.outputs with
           | [], [o] => some (some o.pub_key)
           | _, _ => none)
        else some none) with _ | sender0
      · rw [hm] at h; simp at h
      · rw [hm] at h
        dsimp only [] at h
        cases hci : checkInputs tm t.inputs sender0 0 with
        | none => rw [hci] at h; simp at h
        | some r => exact ⟨sender0, r, hci⟩

/-- The heart of C3: applying a transaction that verify_transaction
accepted succeeds, and reverting it restores the map exactly. -/
theorem apply_revert_roundtrip (c : Crypto) (tm : TxnMap) (t : Transaction)
    (ic : Bool) (h : verifyTransaction c tm t ic = true) :
    ∃ tm1, applyTransaction tm t = some tm1 ∧ revertTransaction tm1 t = some tm := by
  obtain ⟨hmem, s, r, hci⟩ := verifyTransaction_facts c tm t ic h
  have hok := checkInputs_ok tm t.inputs s 0 r hci
  have hpos : ∀ i ∈ t.inputs, inputPos tm i = some (i.txn_id, i.index.toNat) := by
    intro i hi
    obtain ⟨prev, hl, hb, coin, hg, hsp⟩ := hok i hi
    unfold inputPos
    rw [hl]
    dsimp only [Option.bind]
    rw [pyIndex_of_bounds _ _ hb]
    rfl
  have hpres : inputsPresent tm t.inputs := by
    intro i hi
    rw [hpos i hi]
    rfl
  have hfalse : ∀ p ∈ t.inputs.filterMap (inputPos tm),
      ∃ coin, readCoin tm p = some coin ∧ coin.spent = false := by
    intro p hp
    obtain ⟨i, hi, hip⟩ := List.mem_filterMap.mp hp
    obtain ⟨prev, hl, hb, coin, hg, hsp⟩ := hok i hi
    rw [hpos i hi] at hip
    cases hip
    refine ⟨coin, ?_, hsp⟩
    unfold readCoin
    rw [hl]
    dsimp only [Option.bind]
    exact hg
  have hspend := spendInputs_eq t.inputs tm hpres
  have hmemM : assocMember (posWriteAll true tm (t.inputs.filterMap (inputPos tm)))
      t.txn_id = false := by
    rw [assocMember_posWriteAll, hmem]
  refine ⟨posWriteAll true tm (t.inputs.filterMap (inputPos tm)) ++
    [(t.txn_id, installTxn t)], ?_, ?_⟩
  · rw [applyTransaction, hspend]
    dsimp only [Option.map]
    rw [assocInsert, if_neg (by rw [hmemM]; exact Bool.false_ne_true)]
  · rw [revertTransaction, assocPop_append _ _ _ hmemM]
    dsimp only []
    have hpresM : inputsPresent (posWriteAll true tm (t.inputs.filterMap (inputPos tm)))
        (installTxn t).inputs := by
      intro i hi
      rw [inputPos_posWriteAll]
      exact hpres i hi
    rw [unspendInputs_eq _ _ hpresM]
    have hmaps : (installTxn t).inputs.filterMap
        (inputPos (posWriteAll true tm (t.inputs.filterMap (inputPos tm))))
        = t.inputs.filterMap (inputPos tm) := by
      apply List.filterMap_congr
      intro j _
      rw [inputPos_posWriteAll]
    rw [show (installTxn t).inputs = t.inputs from rfl] at hmaps ⊢
    rw [hmaps, posWriteAll_cancel _ tm hfalse]

/-- The verify-apply-revert loop of verify_block leaves the
transaction map where it found it. -/
theorem verifyApplyRevert_restores (c : Crypto) :
    ∀ (ts : List Transaction) (tm : TxnMap) (first ok : Bool) (tm2 : TxnMap),
      verifyApplyRevert c tm ts first = some (ok, tm2) → tm2 = tm := by
  intro ts
  induction ts with
  | nil =>
    intro tm first ok tm2 h
    rw [verifyApplyRevert] at h
    cases h
    rfl
  | cons t rest ih =>
    intro tm first ok tm2 h
    rw [verifyApplyRevert] at h
    by_cases hv : verifyTransaction c tm t first
    · rw [if_pos hv] at h
      obtain ⟨tm1, happly, hrevert⟩ := apply_revert_roundtrip c tm t first hv
      rw [happly] at h
      dsimp only [] at h
      cases hloop : verifyApplyRevert c tm1 rest false with
      | none => rw [hloop] at h; cases h
      | some pr =>
        obtain ⟨ok1, tmr⟩ := pr
        rw [hloop] at h
        dsimp only [] at h
        have : tmr = tm1 := ih tm1 false ok1 tmr hloop
        subst this
        rw [hrevert] at h
        dsimp only [] at h
        cases h
        rfl
    · rw [if_neg hv] at h
      cases h
      rfl

/-- C3: verify_block is atomic on the chain's transaction state:
whatever it returns, the transaction map (and with it the spent flag of
every previously on-chain coin) is exactly what it was before the
call. -/
theorem verify_block_preserves_transactions (c : Crypto) (tm : TxnMap) (b : Block)
    (ok : Bool) (tm2 : TxnMap) (h : verifyBlock c tm b = some (ok, tm2)) :
    tm2 = tm := by
  unfold verifyBlock at h
  by_cases h1 : b.height < 0
  · rw [if_pos h1] at h; cases h; rfl
  · rw [if_neg h1] at h
    by_cases h2 : b.block_hash ≠ some (b.computeHash c)
    · rw [if_pos h2] at h; cases h; rfl
    · rw [if_neg h2] at h
      by_cases h3 : validBlockHash (b.computeHash c) = false
      · rw [if_pos h3] at h; cases h; rfl
      · rw [if_neg h3] at h
        by_cases h4 : b.transactions.length < 1
        · rw [if_pos h4] at h; cases h; rfl
        · rw [if_neg h4] at h
          exact verifyApplyRevert_restores c b.transactions tm true ok tm2 h

/-- C3 witness: the hypothesis holds at a concrete accepted block with
a real coin spend, and the returned map is the starting map. -/
theorem verify_block_preserves_transactions_w : (gMap : TxnMap) = gMap :=
  verify_block_preserves_transactions cTriv gMap spendBlock true gMap (by rfl)

/-- The loop's boolean agrees with the pure verdict. -/
theorem verifyApplyRevert_bool (c : Crypto) :
    ∀ (ts : List Transaction) (tm : TxnMap) (first ok : Bool) (tm2 : TxnMap),
      verifyApplyRevert c tm ts first = some (ok, tm2) →
      ok = txnsVerify c tm ts first := by
  intro ts
  induction ts with
  | nil =>
    intro tm first ok tm2 h
    rw [verifyApplyRevert] at h
    cases h
    rfl
  | cons t rest ih =>
    intro tm first ok tm2 h
    rw [verifyApplyRevert] at h
    rw [txnsVerify]
    by_cases hv : verifyTransaction c tm t first
    · rw [if_pos hv] at h
      rw [hv, Bool.true_and]
      cases happly : applyTransaction tm t with
      | none => rw [happly] at h; cases h
      | some tm1 =>
        rw [happly] at h
        dsimp only [] at h
        cases hloop : verifyApplyRevert c tm1 rest false with
        | none => rw [hloop] at h; cases h
        | some pr =>
          obtain ⟨ok1, tmr⟩ := pr
          rw [hloop] at h
          dsimp only [] at h
          cases hrev : revertTransaction tmr t with
          | none => rw [hrev] at h; cases h
          | some tm3 =>
            rw [hrev] at h
            dsimp only [] at h
            cases h
            exact ih tm1 false _ tmr hloop
    · rw [if_neg hv] at h
      cases h
      rw [Bool.eq_false_iff.mpr hv, Bool.false_and]

/-- C4: whenever verify_block returns, it returns true exactly when,
in order: the height is non-negative, the stored hash equals the
recomputed double-SHA-256 of prev_hash, 4-byte big-endian height,
32-byte big-endian nonce and the transaction-list JSON, that hash has
MIN_ZEROS leading zero bits, the block has at least one transaction,
and every transaction verifies with is_coinbase exactly for index 0;
each earlier check failing short-circuits the later ones. -/
theorem verify_block_checks (c : Crypto) (tm : TxnMap) (b : Block)
    (p : Bool × TxnMap) (h : verifyBlock c tm b = some p) :
    p.1 = (decide (0 ≤ b.height) &&
           decide (b.block_hash = some (b.computeHash c)) &&
           validBlockHash (b.computeHash c) &&
           decide (1 ≤ b.transactions.length) &&
           txnsVerify c tm b.transactions true) := by
  unfold verifyBlock at h
  by_cases h1 : b.height < 0
  · rw [if_pos h1] at h
    cases h
    rw [decide_eq_false (by omega : ¬(0 : Int) ≤ b.height)]
    rfl
  · rw [if_neg h1] at h
    have d1 : decide (0 ≤ b.height) = true := decide_eq_true (by omega : (0 : Int) ≤ b.height)
    by_cases h2 : b.block_hash ≠ some (b.computeHash c)
    · rw [if_pos h2] at h
      cases h
      rw [d1, decide_eq_false h2]
      rfl
    · rw [if_neg h2] at h
      have d2 : decide (b.block_hash = some (b.computeHash c)) = true := by
        simp at h2
        simp [h2]
      by_cases h3 : validBlockHash (b.computeHash c) = false
      · rw [if_pos h3] at h
        cases h
        rw [d1, d2, h3]
        rfl
      · rw [if_neg h3] at h
        have d3 : validBlockHash (b.computeHash c) = true :=
          Bool.not_eq_false _ |>.mp h3
        by_cases h4 : b.transactions.length < 1
        · rw [if_pos h4] at h
          cases h
          rw [d1, d2, d3, decide_eq_false (by omega : ¬1 ≤ b.transactions.length)]
          rfl
        · rw [if_neg h4] at h
          have d4 : decide (1 ≤ b.transactions.length) = true := decide_eq_true (by omega)
          rw [d1, d2, d3, d4]
          have := verifyApplyRevert_bool c b.transactions tm true p.1 p.2
            (by rw [← h])
          rw [this]
          rfl

/-- C4 witness: the demo spend block evaluates every check to true. -/
theorem verify_block_checks_w :
    ((true, gMap) : Bool × TxnMap).1
      = (decide (0 ≤ spendBlock.height) &&
         decide (spendBlock.block_hash = some (spendBlock.computeHash cTriv)) &&
         validBlockHash (spendBlock.computeHash cTriv) &&
         decide (1 ≤ spendBlock.transactions.length) &&
         txnsVerify cTriv gMap spendBlock.transactions true) :=
  verify_block_checks cTriv gMap spendBlock (true, gMap) (by rfl)
